import Mathlib

/-!
Verification development for the RAG document ingestion and retrieval service.

The Python sources under `app/` are shallowly embedded below: pure logic is
translated to executable Lean definitions, external collaborators (the
embedding API, the vector database transport, the text splitter, the file
system) are abstracted as explicit oracle parameters, and Python exceptions
are modelled with `Except` / error results.  Machine floats never undergo
arithmetic in the verified paths, so embedding vectors are modelled as lists
of rationals.
-/

namespace RagSystem

/-- Vectors returned by the embedding API.  The service never computes with
the float entries (it only stores, forwards and measures them), so entries
are modelled as rationals. -/
abbrev Vec := List ℚ

/-! ## Document processor: chunk cap (document_processor.py)

Each `process_*` method extracts text (external I/O, abstracted as the
already-extracted text), applies the langchain text splitter (abstracted as
the `split` oracle), and truncates the chunk list to
`settings.MAX_CHUNKS_PER_DOC` when it is longer. -/

/-- Embedding of the shared truncation step of the four processors:
`if len(chunks) > settings.MAX_CHUNKS_PER_DOC: chunks = chunks[:settings.MAX_CHUNKS_PER_DOC]`. -/
def capChunks (maxChunks : Nat) (chunks : List String) : List String :=
  if chunks.length > maxChunks then chunks.take maxChunks else chunks

/-- Embedding of `DocumentProcessor.process_pdf`: page texts are concatenated
by the PDF library (external; abstracted as the extracted text), split, and
capped. -/
def process_pdf (split : String → List String) (maxChunks : Nat)
    (extractedText : String) : List String :=
  capChunks maxChunks (split extractedText)

/-- Embedding of `DocumentProcessor.process_docx` (paragraph extraction is
external; abstracted as the extracted text). -/
def process_docx (split : String → List String) (maxChunks : Nat)
    (extractedText : String) : List String :=
  capChunks maxChunks (split extractedText)

/-- Embedding of `DocumentProcessor.process_txt` (file reading is external;
abstracted as the decoded text). -/
def process_txt (split : String → List String) (maxChunks : Nat)
    (fileText : String) : List String :=
  capChunks maxChunks (split fileText)

/-! ## JSON values (document_processor.py, weaviate metadata)

JSON documents parsed by `json.load` are modelled by `JValue`.  Numbers are
modelled as rationals; Python booleans are a distinct constructor, but note
that in Python `bool` is a subclass of `int`, which the numeric checks below
reproduce faithfully. -/

/-- A parsed JSON value as produced by `json.load`.  Objects are keyed by
strings (insertion order preserved, keys unique when produced by the JSON
parser). -/
inductive JValue where
  | num (q : ℚ)
  | str (s : String)
  | bool (b : Bool)
  | null
  | arr (l : List JValue)
  | obj (l : List (String × JValue))
deriving Repr

/-- A JSON object, as a key-value association list. -/
abbrev JObj := List (String × JValue)

/-- Python `key in item` for a dict `item`. -/
def objHasKey (item : JObj) (k : String) : Bool :=
  item.any (fun p => p.1 = k)

/-- Python `item.get(key)` / `item[key]` for a dict `item` (first binding
wins; JSON-parsed dicts have unique keys). -/
def objGet (item : JObj) (k : String) : Option JValue :=
  (item.find? (fun p => p.1 = k)).map Prod.snd

/-- Python `isinstance(v, (int, float))`.  Crucially, `True` and `False` are
instances of `int` in Python, so booleans pass this check. -/
def isNumericPy : JValue → Bool
  | .num _ => true
  | .bool _ => true
  | _ => false

/-- Python `isinstance(v, str)`. -/
def isStrPy : JValue → Bool
  | .str _ => true
  | _ => false

/-- The numeric value Python arithmetic sees: numbers are themselves,
`True` is 1 and `False` is 0.  Only applied to values passing
`isNumericPy`; other values are irrelevant and mapped to 0. -/
def toNumQ : JValue → ℚ
  | .num q => q
  | .bool b => if b then 1 else 0
  | _ => 0

/-! ## DocumentProcessor._extract_json_metadata -/

/-- Python `min(values)` for a nonempty list of numbers (None guard kept as
`Option`, matching `min(values) if values else None`). -/
def listMinQ : List ℚ → Option ℚ
  | [] => none
  | x :: xs => some (xs.foldl min x)

/-- Python `max(values)` for a nonempty list of numbers. -/
def listMaxQ : List ℚ → Option ℚ
  | [] => none
  | x :: xs => some (xs.foldl max x)

/-- The per-field aggregation record the code builds:
`{"min": ..., "max": ..., "sum": ..., "avg": ..., "count": ...}`. -/
structure NumStats where
  minV : Option ℚ
  maxV : Option ℚ
  sumV : Option ℚ
  avgV : Option ℚ
  count : Nat
deriving Repr, DecidableEq

/-- The check
`all(isinstance(item.get(key), (int, float)) for item in data if key in item)`. -/
def fieldIsNumeric (data : List JObj) (k : String) : Bool :=
  data.all (fun item =>
    !objHasKey item k || isNumericPy ((objGet item k).getD .null))

/-- Python `values = [item[key] for item in data if key in item]`, coerced to
the numeric values Python arithmetic sees. -/
def fieldValues (data : List JObj) (k : String) : List ℚ :=
  (data.filterMap (fun item => objGet item k)).map toNumQ

/-- The aggregation record built for one numeric field:
min, max, sum, `sum/len` and count over the present values. -/
def statsFor (data : List JObj) (k : String) : NumStats :=
  let values := fieldValues data k
  { minV := listMinQ values
    maxV := listMaxQ values
    sumV := if values = [] then none else some values.sum
    avgV := if values = [] then none else some (values.sum / values.length)
    count := values.length }

/-- The `numeric_fields` dict: the code iterates over `data[0].keys()` only,
keeping the keys whose value is numeric in every item containing them. -/
def numericFields (data : List JObj) : List (String × NumStats) :=
  match data with
  | [] => []
  | first :: _ =>
    (first.map Prod.fst).filterMap (fun k =>
      if fieldIsNumeric data k then some (k, statsFor data k) else none)

/-- The check `all(isinstance(item.get(key), str) for item in data if key in item)`. -/
def fieldIsAllStr (data : List JObj) (k : String) : Bool :=
  data.all (fun item =>
    !objHasKey item k || isStrPy ((objGet item k).getD .null))

/-- One step of `value_counts[value] = value_counts.get(value, 0) + 1`. -/
def bumpCount (acc : List (String × Nat)) (v : String) : List (String × Nat) :=
  if acc.any (fun p => p.1 = v) then
    acc.map (fun p => if p.1 = v then (p.1, p.2 + 1) else p)
  else acc ++ [(v, 1)]

/-- The occurrence-count dict built for a categorical field. -/
def valueCounts (data : List JObj) (k : String) : List (String × Nat) :=
  data.foldl (fun acc item =>
    match objGet item k with
    | some (.str s) => bumpCount acc s
    | _ => acc) []

/-- The `categorical_fields` dict: string-valued keys of `data[0]` whose
distinct-value count is at most 50. -/
def categoricalFields (data : List JObj) : List (String × List (String × Nat)) :=
  match data with
  | [] => []
  | first :: _ =>
    (first.map Prod.fst).filterMap (fun k =>
      if fieldIsAllStr data k then
        let vc := valueCounts data k
        if vc.length ≤ 50 then some (k, vc) else none
      else none)

/-- Interpreting the parsed JSON as a list of dicts:
`isinstance(data, list) and all(isinstance(item, dict) for item in data)`. -/
def asObjList : JValue → Option (List JObj)
  | .arr l =>
    l.foldr (fun v acc =>
      match v, acc with
      | .obj o, some os => some (o :: os)
      | _, _ => none) (some [])
  | _ => none

/-- Embedding of `DocumentProcessor._extract_json_metadata`: when the value
is a nonempty list of dicts, the pair of the `numeric_fields` and
`categorical_fields` entries; otherwise the empty metadata dict
(both entries absent). -/
def extract_json_metadata (data : JValue) :
    Option (List (String × NumStats)) × Option (List (String × List (String × Nat))) :=
  match asObjList data with
  | some objs =>
    if objs.isEmpty then (none, none)
    else (some (numericFields objs), some (categoricalFields objs))
  | none => (none, none)

/-- The result record of `DocumentProcessor.process_json`. -/
structure ProcessJsonResult where
  structured_data : JValue
  text_chunks : List String
  aggregation_metadata :
    Option (List (String × NumStats)) × Option (List (String × List (String × Nat)))

/-- Embedding of `DocumentProcessor.process_json`: the parsed value is
pretty-printed (`json.dumps`, abstracted as the `dumps` oracle), split,
capped, and the aggregation metadata extracted. -/
def process_json (split : String → List String) (dumps : JValue → String)
    (maxChunks : Nat) (data : JValue) : ProcessJsonResult :=
  { structured_data := data
    text_chunks := capChunks maxChunks (split (dumps data))
    aggregation_metadata := extract_json_metadata data }

/-! ## Python `str()` / `eval()` for metadata (weaviate_service.py)

`add_document_chunks` persists the metadata dict as `str(metadata)` and
`get_document_metadata` recovers it with `eval(...)`.  The values involved
come from parsed JSON: dicts with string keys, lists, numbers and strings.
`PyVal` models these values (numbers as arbitrary-precision integers; the
Python float shortest-repr round trip is a floating-point concern outside
this embedding).  `pyStr` models `str()`/`repr()` output: single-quoted
strings with backslash escapes for the quote and the backslash itself,
`[...]` lists and key-value dicts with `, ` and `: ` separators.  `pyEval`
models the literal-reading fragment of `eval` actually exercised by such
strings. -/

/-- The single-quote character used by Python `repr` for strings. -/
def quoteC : Char := Char.ofNat 39

/-- The backslash escape character. -/
def bslashC : Char := Char.ofNat 92

/-- Opening curly bracket of a dict display. -/
def lbraceC : Char := Char.ofNat 123

/-- Closing curly bracket of a dict display. -/
def rbraceC : Char := Char.ofNat 125

/-- A Python value of the shapes that metadata built from parsed JSON can
take: integers, strings, lists, and dicts with string keys. -/
inductive PyVal where
  | int (n : ℤ)
  | str (s : List Char)
  | list (l : List PyVal)
  | dict (l : List (List Char × PyVal))

/-- The decimal digit characters. -/
def digitChar10 : Nat → Char
  | 0 => '0' | 1 => '1' | 2 => '2' | 3 => '3' | 4 => '4'
  | 5 => '5' | 6 => '6' | 7 => '7' | 8 => '8' | _ => '9'

/-- Digit value of a decimal digit character. -/
def charToDigit (c : Char) : Nat :=
  if c = '0' then 0 else if c = '1' then 1 else if c = '2' then 2
  else if c = '3' then 3 else if c = '4' then 4 else if c = '5' then 5
  else if c = '6' then 6 else if c = '7' then 7 else if c = '8' then 8 else 9

/-- Decimal digit string of a natural number, as `repr` prints it. -/
def natChars (n : Nat) : List Char :=
  if _h : n < 10 then [digitChar10 n]
  else natChars (n / 10) ++ [digitChar10 (n % 10)]
decreasing_by exact Nat.div_lt_self (by omega) (by omega)

/-- Decimal string of an integer, with a leading minus sign when negative. -/
def intChars (n : ℤ) : List Char :=
  if n < 0 then '-' :: natChars n.natAbs else natChars n.natAbs

/-- Backslash-escaping applied by `repr` inside a single-quoted string:
the backslash and the quote are escaped, other characters pass through. -/
def escapeChars : List Char → List Char
  | [] => []
  | c :: s =>
    if c = bslashC ∨ c = quoteC then bslashC :: c :: escapeChars s
    else c :: escapeChars s

/-- A single-quoted Python string literal. -/
def strLitChars (s : List Char) : List Char :=
  quoteC :: escapeChars s ++ [quoteC]

mutual

/-- Embedding of Python `str(value)` for metadata values. -/
def pyStr : PyVal → List Char
  | .int n => intChars n
  | .str s => strLitChars s
  | .list l => '[' :: pyStrElems l ++ [']']
  | .dict l => lbraceC :: pyStrEntries l ++ [rbraceC]

/-- The comma-space separated element list inside a list display. -/
def pyStrElems : List PyVal → List Char
  | [] => []
  | [v] => pyStr v
  | v :: vs => pyStr v ++ ',' :: ' ' :: pyStrElems vs

/-- The comma-space separated `key: value` entry list inside a dict display. -/
def pyStrEntries : List (List Char × PyVal) → List Char
  | [] => []
  | [(k, v)] => strLitChars k ++ ':' :: ' ' :: pyStr v
  | (k, v) :: es => strLitChars k ++ ':' :: ' ' :: pyStr v ++ ',' :: ' ' :: pyStrEntries es

end

mutual

/-- Fuel sufficient to parse a printed value (used to drive `parseVal`). -/
def pfuel : PyVal → Nat
  | .int _ => 1
  | .str _ => 1
  | .list l => 1 + pfuelElems l
  | .dict l => 1 + pfuelEntries l

/-- Fuel sufficient to parse a printed element list. -/
def pfuelElems : List PyVal → Nat
  | [] => 1
  | v :: vs => 1 + pfuel v + pfuelElems vs

/-- Fuel sufficient to parse a printed entry list. -/
def pfuelEntries : List (List Char × PyVal) → Nat
  | [] => 1
  | (_, v) :: es => 1 + pfuel v + pfuelEntries es

end

/-- Greedy split of the leading run of decimal digits. -/
def takeDigits : List Char → List Char × List Char
  | [] => ([], [])
  | c :: s =>
    if c.isDigit then
      let p := takeDigits s
      (c :: p.1, p.2)
    else ([], c :: s)

/-- Numeric value of a digit string. -/
def digitsToNat (ds : List Char) : Nat :=
  ds.foldl (fun acc c => 10 * acc + charToDigit c) 0

/-- Parse a nonempty run of digits as a natural number. -/
def parseNat (s : List Char) : Option (Nat × List Char) :=
  let p := takeDigits s
  if p.1 = [] then none else some (digitsToNat p.1, p.2)

/-- Parse an optionally negated decimal integer. -/
def parseInt (s : List Char) : Option (ℤ × List Char) :=
  match s with
  | [] => none
  | c :: s' =>
    if c = '-' then (parseNat s').map (fun p => (-(p.1 : ℤ), p.2))
    else (parseNat (c :: s')).map (fun p => ((p.1 : ℤ), p.2))

/-- Parse the body of a single-quoted string after its opening quote, up to
the closing quote, undoing backslash escapes. -/
def parseStrBody : List Char → Option (List Char × List Char)
  | [] => none
  | c :: s =>
    if c = quoteC then some ([], s)
    else if c = bslashC then
      match s with
      | [] => none
      | c2 :: s2 => (parseStrBody s2).map (fun p => (c2 :: p.1, p.2))
    else (parseStrBody s).map (fun p => (c :: p.1, p.2))

mutual

/-- Fueled parser for a Python literal value (the fragment of `eval`
exercised by `str`-serialized metadata). -/
def parseVal : Nat → List Char → Option (PyVal × List Char)
  | 0, _ => none
  | fuel + 1, s =>
    match s with
    | [] => none
    | c :: s' =>
      if c = quoteC then (parseStrBody s').map (fun p => (PyVal.str p.1, p.2))
      else if c = '[' then (parseElems fuel s').map (fun p => (PyVal.list p.1, p.2))
      else if c = lbraceC then (parseEntries fuel s').map (fun p => (PyVal.dict p.1, p.2))
      else (parseInt (c :: s')).map (fun p => (PyVal.int p.1, p.2))

/-- Fueled parser for the elements of a list display, up to and including
the closing square bracket. -/
def parseElems : Nat → List Char → Option (List PyVal × List Char)
  | 0, _ => none
  | fuel + 1, s =>
    match s with
    | [] => none
    | c :: s' =>
      if c = ']' then some ([], s')
      else
        match parseVal fuel (c :: s') with
        | none => none
        | some (v, rest) =>
          match rest with
          | [] => none
          | c2 :: rest' =>
            if c2 = ',' then
              match rest' with
              | ' ' :: rest2 => (parseElems fuel rest2).map (fun p => (v :: p.1, p.2))
              | _ => none
            else if c2 = ']' then some ([v], rest')
            else none

/-- Fueled parser for the entries of a dict display, up to and including
the closing curly bracket. -/
def parseEntries : Nat → List Char → Option (List (List Char × PyVal) × List Char)
  | 0, _ => none
  | fuel + 1, s =>
    match s with
    | [] => none
    | c :: s' =>
      if c = rbraceC then some ([], s')
      else if c = quoteC then
        match parseStrBody s' with
        | none => none
        | some (k, rest) =>
          match rest with
          | ':' :: ' ' :: rest2 =>
            match parseVal fuel rest2 with
            | none => none
            | some (v, rest3) =>
              match rest3 with
              | [] => none
              | c3 :: rest4 =>
                if c3 = ',' then
                  match rest4 with
                  | ' ' :: rest5 =>
                    (parseEntries fuel rest5).map (fun p => ((k, v) :: p.1, p.2))
                  | _ => none
                else if c3 = rbraceC then some ([(k, v)], rest4)
                else none
          | _ => none
      else none

end

/-- Embedding of `eval(...)` on a `str`-serialized metadata value: parse one
literal and require the whole string consumed. -/
def pyEval (s : List Char) : Option PyVal :=
  match parseVal (2 * s.length + 2) s with
  | some (v, []) => some v
  | _ => none

/-! ## WeaviateService (weaviate_service.py)

The Weaviate database is modelled as the list of `DocumentChunk` objects it
holds; the transport is out of scope.  `uuid.uuid4()` is modelled as an
abstract supply of identifiers indexed by the batch position. -/

/-- One `DocumentChunk` object as written by `add_document_chunks`, together
with its externally supplied vector. -/
structure ChunkRecord where
  id : Nat
  content : String
  documentId : String
  chunkIndex : Nat
  fileType : String
  metadata : List Char
  vector : Vec
deriving Repr

/-- Embedding of `WeaviateService.add_document_chunks`: zip chunks with
embeddings, enumerate from `startIdx`, and build one object per pair with a
fresh id, the serialized metadata and the batch index as `chunkIndex`. -/
def buildRecords (genId : Nat → Nat) (document_id file_type : String)
    (metadataStr : List Char) (startIdx : Nat) :
    List (String × Vec) → List ChunkRecord
  | [] => []
  | (c, e) :: rest =>
    { id := genId startIdx, content := c, documentId := document_id,
      chunkIndex := startIdx, fileType := file_type,
      metadata := metadataStr, vector := e } ::
      buildRecords genId document_id file_type metadataStr (startIdx + 1) rest

/-- Embedding of `WeaviateService.add_document_chunks`: the objects written
in one batch (with `str(metadata)` as the serialized metadata) and the list
of freshly generated chunk ids returned. -/
def add_document_chunks (genId : Nat → Nat) (chunks : List String)
    (embeddings : List Vec) (document_id file_type : String)
    (metadata : PyVal) : List ChunkRecord × List Nat :=
  let recs := buildRecords genId document_id file_type (pyStr metadata) 0
    (chunks.zip embeddings)
  (recs, recs.map (fun r => r.id))

/-- The chunks of one document: the `where` filter
`documentId Equal document_id` applied to the store. -/
def docChunks (store : List ChunkRecord) (document_id : String) :
    List ChunkRecord :=
  store.filter (fun r => r.documentId = document_id)

/-- Embedding of `WeaviateService.get_document_metadata`: fetch one chunk of
the document ( `with_limit(1)` ); absent when the document has no chunks,
otherwise the denormalized file type and the `eval`-deserialized metadata. -/
def get_document_metadata (store : List ChunkRecord) (document_id : String) :
    Option (String × Option PyVal) :=
  match docChunks store document_id with
  | [] => none
  | r :: _ => some (r.fileType, pyEval r.metadata)

/-! ## API endpoints (endpoints.py)

External steps (file extraction, the embedding API, the ranked vector
search) are oracle parameters.  Python exceptions raised by a call and
caught by the `except Exception` handlers surface as HTTP 500 responses. -/

/-- A Python-level error raised while serving a request. -/
inductive PyErr where
  | typeError
  | attributeError
deriving Repr, DecidableEq

/-- Outcome of an endpoint call: a payload or an HTTP error status. -/
inductive EndpointResult (α : Type) where
  | ok (a : α)
  | httpError (code : Nat)
deriving Repr, DecidableEq

/-- Whether an endpoint call succeeded. -/
def EndpointResult.isOk {α : Type} : EndpointResult α → Bool
  | .ok _ => true
  | .httpError _ => false

/-- The named parameters of `WeaviateService.add_document_chunks`
(besides `self`), read off its `def` signature. -/
def addDocumentChunksParams : List String :=
  ["chunks", "embeddings", "document_id", "file_type", "metadata"]

/-- The keyword arguments passed at the store step of `upload_document`. -/
def uploadStoreKwargs : List String :=
  ["chunks", "embeddings", "document_id", "file_type", "metadata", "filename"]

/-- The keyword arguments passed at the store step of `update_document`. -/
def updateStoreKwargs : List String :=
  ["chunks", "embeddings", "document_id", "file_type", "metadata", "filename"]

/-- Python call binding: a keyword call is accepted only when every keyword
names a declared parameter (otherwise `TypeError: unexpected keyword
argument` is raised before the body runs). -/
def kwargsAccepted (params kwargs : List String) : Bool :=
  kwargs.all (fun k => params.contains k)

/-- The store step of `upload_document` / `update_document`: the keyword
call into `add_document_chunks`.  Binding is checked before the body runs,
so a rejected call raises `TypeError` with no object written. -/
def call_add_document_chunks (kwargs : List String) (genId : Nat → Nat)
    (chunks : List String) (embeddings : List Vec)
    (document_id file_type : String) (metadata : PyVal) :
    Except PyErr (List ChunkRecord × List Nat) :=
  if kwargsAccepted addDocumentChunksParams kwargs then
    .ok (add_document_chunks genId chunks embeddings document_id file_type metadata)
  else .error .typeError

/-- The file extensions accepted by the endpoints. -/
def supportedFormats : List String := ["pdf", "docx", "txt", "json"]

/-- Embedding of the `upload_document` endpoint: format validation, then
extraction and embedding (oracles: `processed` is the chunks/metadata
result, absent on extraction failure; `embeddings` the embedded vectors),
then the store step.  Any raised error is caught and surfaced as HTTP 500. -/
def upload_document_endpoint (ext : String)
    (processed : Option (List String × PyVal)) (embeddings : List Vec)
    (genId : Nat → Nat) (document_id : String) :
    EndpointResult (String × PyVal) :=
  if !supportedFormats.contains ext then .httpError 400
  else
    match processed with
    | none => .httpError 500
    | some (chunks, md) =>
      match call_add_document_chunks uploadStoreKwargs genId chunks embeddings
          document_id ext md with
      | .error _ => .httpError 500
      | .ok _ => .ok (document_id, md)

/-- Embedding of the `update_document` endpoint: format validation, then the
document-existence check via `get_document_metadata` (absent gives HTTP
404), then delete, re-extraction, re-embedding and the store step. -/
def update_document_endpoint (store : List ChunkRecord) (ext : String)
    (processed : Option (List String × PyVal)) (embeddings : List Vec)
    (genId : Nat → Nat) (document_id : String) :
    EndpointResult (String × PyVal) :=
  if !supportedFormats.contains ext then .httpError 400
  else
    match get_document_metadata store document_id with
    | none => .httpError 404
    | some _ =>
      match processed with
      | none => .httpError 500
      | some (chunks, md) =>
        match call_add_document_chunks updateStoreKwargs genId chunks embeddings
            document_id ext md with
        | .error _ => .httpError 500
        | .ok _ => .ok (document_id, md)

/-- Embedding of the `delete_document` endpoint: the existence check via
`get_document_metadata` (absent gives HTTP 404), then the bulk delete. -/
def delete_document_endpoint (store : List ChunkRecord) (document_id : String) :
    EndpointResult (List ChunkRecord) :=
  match get_document_metadata store document_id with
  | none => .httpError 404
  | some _ => .ok (store.filter (fun r => !(r.documentId = document_id)))

/-- Embedding of the `query_document` endpoint: the query text is embedded
first (oracle `queryEmbedding`, absent when the embedding API fails, which
the handler surfaces as HTTP 500), then the existence check (absent
metadata gives HTTP 404), then the ranked search (oracle `search`). -/
def query_document_endpoint (store : List ChunkRecord)
    (queryEmbedding : Option Vec)
    (search : Vec → String → Nat → List ChunkRecord)
    (document_id : String) (lim : Nat) :
    EndpointResult (List ChunkRecord × (String × Option PyVal)) :=
  match queryEmbedding with
  | none => .httpError 500
  | some qv =>
    match get_document_metadata store document_id with
    | none => .httpError 404
    | some md => .ok (search qv document_id lim, md)

/-! ## Endpoints calling undefined gateway methods (endpoints.py) -/

/-- The methods the `WeaviateService` class defines, read off
weaviate_service.py. -/
def weaviateServiceMethods : List String :=
  ["__init__", "_setup_schema", "add_document_chunks", "delete_document",
   "query_document", "get_document_metadata"]

/-- Python attribute lookup on the service singleton: calling a name the
class does not define raises `AttributeError`. -/
def serviceHasAttr (name : String) : Bool :=
  weaviateServiceMethods.contains name

/-- The call `weaviate_service.query_across_documents(...)`.  The guard is
false (no such method exists), so the `.ok` branch is never produced. -/
def call_query_across_documents : Except PyErr (List ChunkRecord) :=
  if serviceHasAttr "query_across_documents" then .ok [] else .error .attributeError

/-- The call `weaviate_service.list_documents()`. -/
def call_list_documents : Except PyErr (List (String × Option PyVal)) :=
  if serviceHasAttr "list_documents" then .ok [] else .error .attributeError

/-- The call `weaviate_service.json_aggregation_query(...)`. -/
def call_json_aggregation_query : Except PyErr ℚ :=
  if serviceHasAttr "json_aggregation_query" then .ok 0 else .error .attributeError

/-- Embedding of the `cross_document_query` endpoint: the query is embedded
(oracle; a failure raises and is caught as HTTP 500), then the undefined
gateway method is called; every raised error is caught as HTTP 500. -/
def cross_document_query_endpoint (queryEmbedding : Option Vec) :
    EndpointResult (List ChunkRecord) :=
  match queryEmbedding with
  | none => .httpError 500
  | some _ =>
    match call_query_across_documents with
    | .error _ => .httpError 500
    | .ok r => .ok r

/-- Embedding of the `list_documents` endpoint: it calls the undefined
gateway method immediately. -/
def list_documents_endpoint : EndpointResult (List (String × Option PyVal)) :=
  match call_list_documents with
  | .error _ => .httpError 500
  | .ok r => .ok r

/-- Embedding of the `json_aggregation` endpoint: existence check first
(HTTP 404 when absent), then the JSON file-type check (HTTP 400), then the
undefined gateway method (HTTP 500). -/
def json_aggregation_endpoint (store : List ChunkRecord)
    (document_id _field _operation : String) : EndpointResult ℚ :=
  match get_document_metadata store document_id with
  | none => .httpError 404
  | some (fileType, _) =>
    if !(fileType = "json") then .httpError 400
    else
      match call_json_aggregation_query with
      | .error _ => .httpError 500
      | .ok r => .ok r

/-! ## Configuration acceptance at startup (config.py, document_processor.py)

`Settings` (pydantic) declares `CHUNK_SIZE` and `CHUNK_OVERLAP` with no
validator relating them, and `DocumentProcessor.__init__` passes them
straight to the text splitter.  The only check anywhere on the startup path
is the one modelled from the external library below. -/

/-- Modelled from the spec and the langchain boundary: the
`RecursiveCharacterTextSplitter` constructor (external library, not part of
this repository) raises a `ValueError` only when `chunk_overlap` is
strictly greater than `chunk_size`; the repository code adds no check of
its own (`Settings` in config.py, `DocumentProcessor.__init__`). -/
def splitter_init_ok (chunk_size chunk_overlap : Nat) : Bool :=
  chunk_overlap ≤ chunk_size

/-- Whether process startup succeeds with the given chunking configuration:
`Settings` accepts any integers, and the singleton
`DocumentProcessor()` constructed at import time runs the splitter
constructor. -/
def startup_accepts (chunk_size chunk_overlap : Nat) : Bool :=
  splitter_init_ok chunk_size chunk_overlap

/-! ## EmbeddingService (embeddings.py)

The external `genai.embed_content` call is abstracted as an oracle giving,
for a (truncated) text and an attempt number, the returned vector or a
failure.  `batchApi` is the oracle seen by the thread-pool batch path
(`_process_text_batch`), `singleApi` the one seen by the individual path
(`get_embeddings`); sleeping between attempts has no observable effect on
results and is dropped. -/

/-- The embedding API as observed by the service: per attempt, a vector or
a raised exception (`none`). -/
structure EmbedOracle where
  batchApi : String → Nat → Option Vec
  singleApi : String → Nat → Option Vec

/-- Truncation of over-long texts before submission:
`if len(text) > 25000: text = text[:25000]`. -/
def truncate25000 (t : String) : String :=
  if t.length > 25000 then t.take 25000 else t

/-- The retry loop: attempts `attempt, attempt+1, ...` for `fuel` tries,
returning the first successful result, `none` when every try fails. -/
def tryFrom (f : Nat → Option Vec) : Nat → Nat → Option Vec
  | _, 0 => none
  | attempt, fuel + 1 =>
    match f attempt with
    | some v => some v
    | none => tryFrom f (attempt + 1) fuel

/-- One text's work inside `_process_text_batch`: truncate, then up to
`retry_attempts = 3` calls; on final failure the slot records `None`
to maintain order. -/
def batchEmbedOne (o : EmbedOracle) (t : String) : Option Vec :=
  tryFrom (fun a => o.batchApi (truncate25000 t) a) 0 3

/-- Embedding of `EmbeddingService._process_text_batch`: the per-text
results of one batch, in batch order. -/
def process_text_batch (o : EmbedOracle) (batch : List String) :
    List (Option Vec) :=
  batch.map (batchEmbedOne o)

/-- Embedding of `EmbeddingService.get_embeddings` (the individual path,
used as the fallback): truncate, then up to 3 attempts; the final failure
re-raises, modelled as `none`. -/
def get_embeddings (o : EmbedOracle) (t : String) : Option Vec :=
  tryFrom (fun a => o.singleApi (truncate25000 t) a) 0 3

/-- Splitting the input into batches of `n`
(`[texts[i:i + self.batch_size] for i in range(0, len(texts), self.batch_size)]`). -/
def toBatches (n : Nat) (fuel : Nat) (l : List String) : List (List String) :=
  match fuel with
  | 0 => []
  | fuel + 1 =>
    match l with
    | [] => []
    | _ => l.take n :: toBatches n fuel (l.drop n)

/-- The dimensionality probe
`next((len(emb) for emb in all_embeddings if emb is not None), 768)`:
length of the first non-`None` entry, defaulting to 768. -/
def firstDim (l : List (Option Vec)) : Nat :=
  match l.findSome? (fun x => x.map List.length) with
  | some n => n
  | none => 768

/-- The fallback pass of `get_batch_embeddings`: walk the collected slots in
order; a `None` slot is retried once via `get_embeddings` and otherwise
replaced in place by a zero vector whose length is the dimensionality probe
over the current (partially rewritten) list. -/
def fillFallbacks (o : EmbedOracle) (done : List (Option Vec)) :
    List (String × Option Vec) → List (Option Vec)
  | [] => done
  | (t, e) :: rest =>
    match e with
    | some v => fillFallbacks o (done ++ [some v]) rest
    | none =>
      match get_embeddings o t with
      | some v => fillFallbacks o (done ++ [some v]) rest
      | none =>
        let d := firstDim (done ++ none :: rest.map Prod.snd)
        fillFallbacks o (done ++ [some (List.replicate d 0)]) rest

/-- Embedding of `EmbeddingService.get_batch_embeddings`: empty input short
circuits; otherwise the texts are split into batches of `batch_size = 10`,
each batch mapped through `_process_text_batch` (the thread-pool
`executor.map` preserves batch order), the per-batch results flattened, and
the fallback pass applied slot by slot. -/
def get_batch_embeddings (o : EmbedOracle) (texts : List String) : List Vec :=
  if texts = [] then []
  else
    let batches := toBatches 10 texts.length texts
    let allEmbeddings := (batches.map (process_text_batch o)).flatten
    (fillFallbacks o [] (texts.zip allEmbeddings)).map (fun e => e.getD [])

/-! ## Helper lemmas -/

theorem capChunks_eq_take (maxChunks : Nat) (l : List String) :
    capChunks maxChunks l = l.take (min l.length maxChunks) := by
  unfold capChunks
  split
  · next h => congr 1; omega
  · next h =>
    rw [min_eq_left (by omega), List.take_length]

/-! ## Theorems for the claims -/

/-- C6: the claim says a configuration with `chunk_overlap ≥ chunk_size` is
rejected at startup, so that every accepted configuration satisfies
`overlap < chunk_size`.  The code has no such check: `Settings` declares
the two fields with no relating validator and `DocumentProcessor.__init__`
passes them to the splitter, whose constructor only rejects a strictly
greater overlap.  The default-shaped configuration `CHUNK_SIZE = 512,
CHUNK_OVERLAP = 512` is accepted although `512 < 512` fails (while a
strictly greater overlap is indeed rejected). -/
theorem startup_accepts_overlap_equal_size :
    startup_accepts 512 512 = true ∧ ¬ ((512 : Nat) < 512) ∧
    startup_accepts 512 513 = false := by
  decide

/-- C3: both the upload and the update orchestrators pass a `filename`
keyword that `add_document_chunks` does not declare, so the call raises
`TypeError` before any chunk is written, and neither the UPLOAD nor the
UPDATE operation can ever return success. -/
theorem store_call_unexpected_kwarg_type_error :
    (∀ genId chunks embeddings document_id file_type metadata,
      call_add_document_chunks uploadStoreKwargs genId chunks embeddings
        document_id file_type metadata = .error .typeError) ∧
    (∀ genId chunks embeddings document_id file_type metadata,
      call_add_document_chunks updateStoreKwargs genId chunks embeddings
        document_id file_type metadata = .error .typeError) ∧
    (∀ ext processed embeddings genId document_id,
      (upload_document_endpoint ext processed embeddings genId
        document_id).isOk = false) ∧
    (∀ store ext processed embeddings genId document_id,
      (update_document_endpoint store ext processed embeddings genId
        document_id).isOk = false) := by
  have hkw : kwargsAccepted addDocumentChunksParams uploadStoreKwargs = false := by
    decide
  have hkw2 : kwargsAccepted addDocumentChunksParams updateStoreKwargs = false := by
    decide
  have hcall : ∀ kwargs, kwargsAccepted addDocumentChunksParams kwargs = false →
      ∀ genId chunks embeddings document_id file_type metadata,
      call_add_document_chunks kwargs genId chunks embeddings
        document_id file_type metadata = .error .typeError := by
    intro kwargs hk genId chunks embeddings document_id file_type metadata
    simp [call_add_document_chunks, hk]
  refine ⟨hcall _ hkw, hcall _ hkw2, ?_, ?_⟩
  · intro ext processed embeddings genId document_id
    unfold upload_document_endpoint
    split
    · rfl
    · cases processed with
      | none => rfl
      | some p =>
        obtain ⟨chunks, md⟩ := p
        simp [hcall _ hkw genId chunks embeddings document_id ext md,
          EndpointResult.isOk]
  · intro store ext processed embeddings genId document_id
    unfold update_document_endpoint
    split
    · rfl
    · cases hmd : get_document_metadata store document_id with
      | none => rfl
      | some _ =>
        cases processed with
        | none => rfl
        | some p =>
          obtain ⟨chunks, md⟩ := p
          simp [hcall _ hkw2 genId chunks embeddings document_id ext md,
            EndpointResult.isOk]

/-- C4: every processor returns exactly the split chunks when the split
yields at most `maxChunks` of them, and exactly the first `maxChunks`
chunks, in original order, when it yields more. -/
theorem chunk_cap_truncates_to_max (split : String → List String)
    (maxChunks : Nat) (text : String) (dumps : JValue → String) (data : JValue) :
    process_pdf split maxChunks text =
      (split text).take (min (split text).length maxChunks) ∧
    process_docx split maxChunks text =
      (split text).take (min (split text).length maxChunks) ∧
    process_txt split maxChunks text =
      (split text).take (min (split text).length maxChunks) ∧
    (process_json split dumps maxChunks data).text_chunks =
      (split (dumps data)).take (min (split (dumps data)).length maxChunks) ∧
    ((split text).length > maxChunks →
      (process_pdf split maxChunks text).length = maxChunks) ∧
    ((split text).length ≤ maxChunks →
      process_pdf split maxChunks text = split text) ∧
    (∀ i, i < (process_pdf split maxChunks text).length →
      (process_pdf split maxChunks text)[i]? = (split text)[i]?) := by
  have hcap := capChunks_eq_take maxChunks (split text)
  refine ⟨hcap, hcap, hcap, capChunks_eq_take maxChunks (split (dumps data)),
    ?_, ?_, ?_⟩
  · intro hgt
    rw [show process_pdf split maxChunks text = capChunks maxChunks (split text)
      from rfl, hcap, List.length_take]
    omega
  · intro hle
    rw [show process_pdf split maxChunks text = capChunks maxChunks (split text)
      from rfl, hcap, min_eq_left hle, List.take_length]
  · intro i hi
    rw [show process_pdf split maxChunks text = capChunks maxChunks (split text)
      from rfl, hcap] at hi ⊢
    rw [List.length_take] at hi
    rw [List.getElem?_take, if_pos (by omega)]

/-- Witness for `chunk_cap_truncates_to_max` at a concrete splitter. -/
theorem chunk_cap_truncates_to_max_witness :
    process_pdf (fun _ => ["a", "b", "c"]) 2 "t" = ["a", "b"] ∧
    process_txt (fun _ => ["a", "b", "c"]) 5 "t" = ["a", "b", "c"] := by
  have h := chunk_cap_truncates_to_max (fun _ => ["a", "b", "c"]) 2 "t"
    (fun _ => "") (JValue.null)
  have h5 := chunk_cap_truncates_to_max (fun _ => ["a", "b", "c"]) 5 "t"
    (fun _ => "") (JValue.null)
  exact ⟨by rw [h.1]; rfl, h5.2.2.2.2.2.1 (by decide)⟩

/-- C7: a `document_id` having no chunks in the store makes
`get_document_metadata` absent, so the query endpoint (once the query text
embeds), the update endpoint (for a supported file format) and the delete
endpoint all answer HTTP 404 rather than an empty success. -/
theorem missing_document_operations_not_found (store : List ChunkRecord)
    (document_id : String)
    (habsent : ∀ r ∈ store, r.documentId ≠ document_id) :
    (∀ qv search lim,
      query_document_endpoint store (some qv) search document_id lim =
        .httpError 404) ∧
    (∀ ext processed embeddings genId, supportedFormats.contains ext = true →
      update_document_endpoint store ext processed embeddings genId
        document_id = .httpError 404) ∧
    delete_document_endpoint store document_id = .httpError 404 := by
  have hchunks : docChunks store document_id = [] := by
    rw [docChunks, List.filter_eq_nil_iff]
    intro r hr
    simpa using habsent r hr
  have hmeta : get_document_metadata store document_id = none := by
    rw [get_document_metadata, hchunks]
  refine ⟨?_, ?_, ?_⟩
  · intro qv search lim
    rw [query_document_endpoint, hmeta]
  · intro ext processed embeddings genId hext
    unfold update_document_endpoint
    simp only [hmeta]
    rw [if_neg (by simp [List.elem_iff.mp hext])]
  · rw [delete_document_endpoint, hmeta]

/-- Witness for `missing_document_operations_not_found` on the empty store. -/
theorem missing_document_operations_not_found_witness :
    query_document_endpoint [] (some [1]) (fun _ _ _ => []) "doc-x" 5 =
      .httpError 404 ∧
    delete_document_endpoint [] "doc-x" = .httpError 404 := by
  have h := missing_document_operations_not_found [] "doc-x" (by simp)
  exact ⟨h.1 [1] (fun _ _ _ => []) 5, h.2.2⟩

/-- C9 counterexample: the claim states that the cross-document query,
list-documents and JSON-aggregation operations raise `AttributeError`
(surfaced as HTTP 500) for every input; but a JSON-aggregation request for
a document with no chunks fails its existence precondition first and
answers HTTP 404, never reaching the undefined gateway method. -/
theorem json_aggregation_missing_doc_counterexample :
    json_aggregation_endpoint [] "missing-doc" "a" "min" = .httpError 404 ∧
    decide (json_aggregation_endpoint [] "missing-doc" "a" "min" =
      .httpError 500) = false := by
  exact ⟨rfl, by decide⟩

/-- C9 (amended): the three gateway methods are undefined on
`WeaviateService`, so any request reaching the gateway call raises
`AttributeError` and is surfaced as HTTP 500; the cross-document query and
list-documents endpoints answer HTTP 500 on every input, and the
JSON-aggregation endpoint never returns success (it answers 404 or 400
when its precondition checks fail first, and 500 otherwise). -/
theorem undefined_gateway_methods_never_succeed :
    call_query_across_documents = .error .attributeError ∧
    call_list_documents = .error .attributeError ∧
    call_json_aggregation_query = .error .attributeError ∧
    (∀ queryEmbedding,
      cross_document_query_endpoint queryEmbedding = .httpError 500) ∧
    list_documents_endpoint = .httpError 500 ∧
    (∀ store document_id f op,
      (json_aggregation_endpoint store document_id f op).isOk = false) ∧
    (∀ store document_id f op md,
      get_document_metadata store document_id = some md → md.1 = "json" →
      json_aggregation_endpoint store document_id f op = .httpError 500) := by
  have h1 : call_query_across_documents = .error .attributeError := rfl
  have h2 : call_list_documents = .error .attributeError := rfl
  have h3 : call_json_aggregation_query = .error .attributeError := rfl
  refine ⟨h1, h2, h3, ?_, ?_, ?_, ?_⟩
  · intro queryEmbedding
    cases queryEmbedding with
    | none => rfl
    | some qv => rw [cross_document_query_endpoint, h1]
  · rw [list_documents_endpoint, h2]
  · intro store document_id f op
    rw [json_aggregation_endpoint]
    cases get_document_metadata store document_id with
    | none => rfl
    | some md =>
      by_cases hft : md.1 = "json"
      · obtain ⟨ft, m⟩ := md
        simp only at hft
        simp [hft, h3, EndpointResult.isOk]
      · obtain ⟨ft, m⟩ := md
        simp only at hft
        simp [hft, EndpointResult.isOk]
  · intro store document_id f op md hmd hft
    rw [json_aggregation_endpoint, hmd]
    obtain ⟨ft, m⟩ := md
    simp only at hft
    simp [hft, h3]

/-- A one-chunk store holding a JSON document, for the C9 witness. -/
def demoJsonStore : List ChunkRecord :=
  [{ id := 0, content := "c", documentId := "d1", chunkIndex := 0,
     fileType := "json", metadata := pyStr (.int 1), vector := [1] }]

/-- Witness for `undefined_gateway_methods_never_succeed`: a JSON document
that exists still gets HTTP 500 from the aggregation endpoint. -/
theorem undefined_gateway_methods_never_succeed_witness :
    json_aggregation_endpoint demoJsonStore "d1" "a" "min" = .httpError 500 := by
  exact undefined_gateway_methods_never_succeed.2.2.2.2.2.2 demoJsonStore "d1"
    "a" "min" ("json", pyEval (pyStr (.int 1))) rfl rfl

theorem buildRecords_map_chunkIndex (genId : Nat → Nat) (d f : String)
    (m : List Char) (s : Nat) (l : List (String × Vec)) :
    (buildRecords genId d f m s l).map (fun r => r.chunkIndex) =
      List.range' s l.length := by
  induction l generalizing s with
  | nil => rfl
  | cons p rest ih =>
    obtain ⟨c, e⟩ := p
    simp [buildRecords, List.range'_succ, ih]

theorem buildRecords_map_content (genId : Nat → Nat) (d f : String)
    (m : List Char) (s : Nat) (l : List (String × Vec)) :
    (buildRecords genId d f m s l).map (fun r => r.content) = l.map Prod.fst := by
  induction l generalizing s with
  | nil => rfl
  | cons p rest ih =>
    obtain ⟨c, e⟩ := p
    simp [buildRecords, ih]

theorem buildRecords_map_vector (genId : Nat → Nat) (d f : String)
    (m : List Char) (s : Nat) (l : List (String × Vec)) :
    (buildRecords genId d f m s l).map (fun r => r.vector) = l.map Prod.snd := by
  induction l generalizing s with
  | nil => rfl
  | cons p rest ih =>
    obtain ⟨c, e⟩ := p
    simp [buildRecords, ih]

theorem buildRecords_map_id (genId : Nat → Nat) (d f : String)
    (m : List Char) (s : Nat) (l : List (String × Vec)) :
    (buildRecords genId d f m s l).map (fun r => r.id) =
      (List.range' s l.length).map genId := by
  induction l generalizing s with
  | nil => rfl
  | cons p rest ih =>
    obtain ⟨c, e⟩ := p
    simp [buildRecords, List.range'_succ, ih]

theorem buildRecords_documentId (genId : Nat → Nat) (d f : String)
    (m : List Char) (s : Nat) (l : List (String × Vec)) :
    ∀ r ∈ buildRecords genId d f m s l, r.documentId = d := by
  induction l generalizing s with
  | nil => intro r hr; cases hr
  | cons p rest ih =>
    obtain ⟨c, e⟩ := p
    intro r hr
    rcases List.mem_cons.mp hr with hr | hr
    · rw [hr]
    · exact ih (s + 1) r hr

theorem buildRecords_metadata (genId : Nat → Nat) (d f : String)
    (m : List Char) (s : Nat) (l : List (String × Vec)) :
    ∀ r ∈ buildRecords genId d f m s l, r.metadata = m := by
  induction l generalizing s with
  | nil => intro r hr; cases hr
  | cons p rest ih =>
    obtain ⟨c, e⟩ := p
    intro r hr
    rcases List.mem_cons.mp hr with hr | hr
    · rw [hr]
    · exact ih (s + 1) r hr

/-- C8: with equal-length chunk and embedding sequences,
`add_document_chunks` writes one object per chunk in input order, whose
`chunkIndex` values are exactly the contiguous sequence `0 .. N-1` (no
gaps, no duplicates), each object carrying a freshly generated identifier
(pairwise distinct under an injective id supply, modelling `uuid4`). -/
theorem add_document_chunks_contiguous_indices (genId : Nat → Nat)
    (chunks : List String) (embeddings : List Vec)
    (document_id file_type : String) (metadata : PyVal)
    (hlen : chunks.length = embeddings.length)
    (hinj : Function.Injective genId) :
    ((add_document_chunks genId chunks embeddings document_id file_type
        metadata).1.map (fun r => r.chunkIndex)) = List.range chunks.length ∧
    ((add_document_chunks genId chunks embeddings document_id file_type
        metadata).1.map (fun r => r.content)) = chunks ∧
    ((add_document_chunks genId chunks embeddings document_id file_type
        metadata).1.map (fun r => r.vector)) = embeddings ∧
    (∀ r ∈ (add_document_chunks genId chunks embeddings document_id file_type
        metadata).1, r.documentId = document_id) ∧
    ((add_document_chunks genId chunks embeddings document_id file_type
        metadata).2 = (List.range chunks.length).map genId) ∧
    (add_document_chunks genId chunks embeddings document_id file_type
        metadata).2.Nodup := by
  have hziplen : (chunks.zip embeddings).length = chunks.length := by
    rw [List.length_zip]; omega
  have hrange : List.range' 0 (chunks.zip embeddings).length =
      List.range chunks.length := by
    rw [hziplen, List.range_eq_range']
  refine ⟨?_, ?_, ?_, ?_, ?_, ?_⟩
  · rw [add_document_chunks, buildRecords_map_chunkIndex, hrange]
  · rw [add_document_chunks, buildRecords_map_content,
      List.map_fst_zip _ _ (by omega)]
  · rw [add_document_chunks, buildRecords_map_vector,
      List.map_snd_zip _ _ (by omega)]
  · exact buildRecords_documentId _ _ _ _ _ _
  · rw [add_document_chunks, buildRecords_map_id, hrange]
  · rw [add_document_chunks, buildRecords_map_id, hrange]
    exact (List.nodup_range _).map hinj

/-- Witness for `add_document_chunks_contiguous_indices` at a two-chunk
batch with the identity id supply. -/
theorem add_document_chunks_contiguous_indices_witness :
    ((add_document_chunks (fun n => n) ["c0", "c1"] [[1], [2]] "doc" "txt"
      (.int 0)).1.map (fun r => r.chunkIndex)) = [0, 1] ∧
    (add_document_chunks (fun n => n) ["c0", "c1"] [[1], [2]] "doc" "txt"
      (.int 0)).2.Nodup := by
  have h := add_document_chunks_contiguous_indices (fun n => n) ["c0", "c1"]
    [[1], [2]] "doc" "txt" (.int 0) (by decide) (fun a b hab => hab)
  exact ⟨h.1, h.2.2.2.2.2⟩

/-! ## Lemmas about _extract_json_metadata -/

theorem objHasKey_eq_isSome (item : JObj) (k : String) :
    objHasKey item k = (objGet item k).isSome := by
  induction item with
  | nil => rfl
  | cons p rest ih =>
    by_cases hp : p.1 = k
    · simp [objHasKey, objGet, List.find?_cons, hp]
    · simp only [objHasKey, objGet] at ih ⊢
      simp [List.find?_cons, List.any_cons, hp, ih]

theorem objGet_of_mem_keys (item : JObj) (k : String)
    (hk : k ∈ item.map Prod.fst) : ∃ v, objGet item k = some v := by
  have hs : (objGet item k).isSome = true := by
    rw [← objHasKey_eq_isSome, objHasKey, List.any_eq_true]
    obtain ⟨p, hp, hpk⟩ := List.mem_map.mp hk
    exact ⟨p, hp, by simp [hpk]⟩
  cases hv : objGet item k with
  | none => rw [hv] at hs; cases hs
  | some v => exact ⟨v, rfl⟩

theorem fieldIsNumeric_iff (data : List JObj) (k : String) :
    fieldIsNumeric data k = true ↔
      ∀ item ∈ data, ∀ v, objGet item k = some v → isNumericPy v = true := by
  rw [fieldIsNumeric, List.all_eq_true]
  constructor
  · intro h item hitem v hv
    have := h item hitem
    rw [objHasKey_eq_isSome, hv] at this
    simpa [hv] using this
  · intro h item hitem
    cases hv : objGet item k with
    | none => simp [objHasKey_eq_isSome, hv]
    | some v =>
      simp [objHasKey_eq_isSome, hv, h item hitem v hv]

theorem fieldValues_length (data : List JObj) (k : String) :
    (fieldValues data k).length =
      (data.filter (fun item => objHasKey item k)).length := by
  rw [fieldValues, List.length_map]
  induction data with
  | nil => rfl
  | cons item rest ih =>
    rw [List.filterMap_cons, List.filter_cons]
    cases hv : objGet item k with
    | none =>
      rw [objHasKey_eq_isSome, hv]
      simpa using ih
    | some v =>
      rw [objHasKey_eq_isSome, hv]
      simpa using ih

theorem foldl_min_mem (x : ℚ) (xs : List ℚ) : xs.foldl min x ∈ x :: xs := by
  induction xs generalizing x with
  | nil => simp
  | cons a xs ih =>
    rw [List.foldl_cons]
    rcases List.mem_cons.mp (ih (min x a)) with h | h
    · rw [h]
      rcases min_choice x a with h2 | h2 <;> rw [h2] <;> simp
    · simp [h]

theorem foldl_min_le (x : ℚ) (xs : List ℚ) :
    ∀ y ∈ x :: xs, xs.foldl min x ≤ y := by
  induction xs generalizing x with
  | nil => simp
  | cons a xs ih =>
    intro y hy
    rw [List.foldl_cons]
    rcases List.mem_cons.mp hy with h | h
    · calc xs.foldl min (min x a) ≤ min x a := ih (min x a) _ (by simp)
        _ ≤ x := min_le_left x a
        _ = y := h.symm
    · rcases List.mem_cons.mp h with h2 | h2
      · calc xs.foldl min (min x a) ≤ min x a := ih (min x a) _ (by simp)
          _ ≤ a := min_le_right x a
          _ = y := h2.symm
      · exact ih (min x a) y (by simp [h2])

theorem foldl_max_mem (x : ℚ) (xs : List ℚ) : xs.foldl max x ∈ x :: xs := by
  induction xs generalizing x with
  | nil => simp
  | cons a xs ih =>
    rw [List.foldl_cons]
    rcases List.mem_cons.mp (ih (max x a)) with h | h
    · rw [h]
      rcases max_choice x a with h2 | h2 <;> rw [h2] <;> simp
    · simp [h]

theorem foldl_max_ge (x : ℚ) (xs : List ℚ) :
    ∀ y ∈ x :: xs, y ≤ xs.foldl max x := by
  induction xs generalizing x with
  | nil => simp
  | cons a xs ih =>
    intro y hy
    rw [List.foldl_cons]
    rcases List.mem_cons.mp hy with h | h
    · calc y = x := h
        _ ≤ max x a := le_max_left x a
        _ ≤ xs.foldl max (max x a) := ih (max x a) _ (by simp)
    · rcases List.mem_cons.mp h with h2 | h2
      · calc y = a := h2
          _ ≤ max x a := le_max_right x a
          _ ≤ xs.foldl max (max x a) := ih (max x a) _ (by simp)
      · exact ih (max x a) y (by simp [h2])

theorem find?_numericFields_aux (data : List JObj) (k : String)
    (ks : List String) :
    (ks.filterMap (fun key =>
        if fieldIsNumeric data key then some (key, statsFor data key)
        else none)).find? (fun p => p.1 = k) =
      if k ∈ ks ∧ fieldIsNumeric data k = true then some (k, statsFor data k)
      else none := by
  induction ks with
  | nil => simp
  | cons k1 ks ih =>
    rw [List.filterMap_cons]
    by_cases h1 : fieldIsNumeric data k1 = true
    · rw [if_pos h1]
      by_cases hk : k1 = k
      · subst hk
        rw [List.find?_cons_of_pos _ (by simp), if_pos ⟨List.mem_cons_self _ _, h1⟩]
      · rw [List.find?_cons_of_neg _ (by simp [hk]), ih]
        by_cases hks : k ∈ ks
        · simp [hks, List.mem_cons]
        · have hnk : ¬ k ∈ k1 :: ks := by
            intro hmem
            rcases List.mem_cons.mp hmem with h | h
            · exact hk h.symm
            · exact hks h
          simp [hks, hnk]
    · rw [if_neg h1, ih]
      by_cases hk : k1 = k
      · subst hk
        have h2 : ¬ (k1 ∈ ks ∧ fieldIsNumeric data k1 = true) := fun h => h1 h.2
        have h3 : ¬ (k1 ∈ k1 :: ks ∧ fieldIsNumeric data k1 = true) := fun h => h1 h.2
        rw [if_neg h2, if_neg h3]
      · by_cases hks : k ∈ ks
        · simp [hks, List.mem_cons]
        · have hnk : ¬ k ∈ k1 :: ks := by
            intro hmem
            rcases List.mem_cons.mp hmem with h | h
            · exact hk h.symm
            · exact hks h
          simp [hks, hnk]

theorem find?_categoricalFields_aux (data : List JObj) (k : String)
    (ks : List String) (hnot : fieldIsAllStr data k = false) :
    (ks.filterMap (fun key =>
        if fieldIsAllStr data key then
          let vc := valueCounts data key
          if vc.length ≤ 50 then some (key, vc) else none
        else none)).find? (fun p => p.1 = k) = none := by
  induction ks with
  | nil => simp
  | cons k1 ks ih =>
    rw [List.filterMap_cons]
    by_cases h1 : fieldIsAllStr data k1 = true
    · have hk : ¬ k1 = k := fun h => by rw [h, hnot] at h1; cases h1
      by_cases h2 : (valueCounts data k1).length ≤ 50
      · simp only [if_pos h1, h2, if_pos]
        rw [List.find?_cons_of_neg _ (by simp [hk]), ih]
      · simp only [if_pos h1, h2, if_neg]
        exact ih
    · rw [if_neg h1]
      exact ih

theorem statsFor_count (data : List JObj) (k : String) :
    (statsFor data k).count = (fieldValues data k).length := rfl

theorem statsFor_sumV (data : List JObj) (k : String) :
    (statsFor data k).sumV =
      if fieldValues data k = [] then none
      else some (fieldValues data k).sum := rfl

theorem statsFor_avgV (data : List JObj) (k : String) :
    (statsFor data k).avgV =
      if fieldValues data k = [] then none
      else some ((fieldValues data k).sum / ((fieldValues data k).length : ℚ)) := rfl

theorem statsFor_minV (data : List JObj) (k : String) :
    (statsFor data k).minV = listMinQ (fieldValues data k) := rfl

theorem statsFor_maxV (data : List JObj) (k : String) :
    (statsFor data k).maxV = listMaxQ (fieldValues data k) := rfl

/-- C5 counterexample: the claim says `numeric_fields` contains exactly the

fields whose value is numeric in every item where the field is present.
For the array `[{"a": 1}, {"b": 2}]`, the field `b` is present (in the
second item) and numeric in every item where present, yet the code only
iterates over the first item's keys, so `b` is absent from
`numeric_fields`. -/
theorem numeric_fields_first_item_only_counterexample :
    fieldIsNumeric [[("a", JValue.num 1)], [("b", JValue.num 2)]] "b" = true ∧
    (([[("a", JValue.num 1)], [("b", JValue.num 2)]] : List JObj).any
      (fun item => objHasKey item "b") = true) ∧
    (numericFields [[("a", JValue.num 1)], [("b", JValue.num 2)]]).find?
      (fun p => p.1 = "b") = none := by
  decide

/-- C5 (amended): for a nonempty JSON array of objects, `numeric_fields`
contains exactly those fields *of the first object* whose value is numeric
(in Python's `isinstance(int/float)` sense) in every item where the field
is present, each mapped to min, max, sum, average and count computed over
exactly the items where the field is present (items missing the field are
skipped, never counted as zero). -/
theorem numeric_fields_characterization (data : JValue) (objs : List JObj)
    (first : JObj) (rest : List JObj)
    (hobjs : asObjList data = some objs) (hfirst : objs = first :: rest)
    (k : String) :
    (extract_json_metadata data).1 = some (numericFields objs) ∧
    (((numericFields objs).find? (fun p => p.1 = k)).isSome = true ↔
      (k ∈ first.map Prod.fst ∧
        ∀ item ∈ objs, ∀ v, objGet item k = some v → isNumericPy v = true)) ∧
    (∀ st, (numericFields objs).find? (fun p => p.1 = k) = some st →
      st.1 = k ∧
      st.2.count = (objs.filter (fun item => objHasKey item k)).length ∧
      (st.2.count ≠ 0 →
        st.2.sumV = some (fieldValues objs k).sum ∧
        st.2.avgV = some ((fieldValues objs k).sum / (st.2.count : ℚ)) ∧
        (∃ m, st.2.minV = some m ∧ m ∈ fieldValues objs k ∧
          ∀ x ∈ fieldValues objs k, m ≤ x) ∧
        (∃ m, st.2.maxV = some m ∧ m ∈ fieldValues objs k ∧
          ∀ x ∈ fieldValues objs k, x ≤ m))) := by
  subst hfirst
  have hfind := find?_numericFields_aux (first :: rest) k (first.map Prod.fst)
  have hnf : numericFields (first :: rest) =
      (first.map Prod.fst).filterMap (fun key =>
        if fieldIsNumeric (first :: rest) key then
          some (key, statsFor (first :: rest) key)
        else none) := rfl
  refine ⟨?_, ?_, ?_⟩
  · rw [extract_json_metadata, hobjs]
    simp
  · rw [hnf, hfind]
    by_cases hcond : k ∈ first.map Prod.fst ∧
        fieldIsNumeric (first :: rest) k = true
    · rw [if_pos hcond]
      simp only [Option.isSome_some, true_iff]
      exact ⟨hcond.1, (fieldIsNumeric_iff _ _).mp hcond.2⟩
    · rw [if_neg hcond]
      constructor
      · intro hfalse
        exact absurd hfalse (by decide)
      · rintro ⟨hmem, hnum⟩
        exact absurd ⟨hmem, (fieldIsNumeric_iff _ _).mpr hnum⟩ hcond
  · intro st hst
    rw [hnf, hfind] at hst
    by_cases hcond : k ∈ first.map Prod.fst ∧
        fieldIsNumeric (first :: rest) k = true
    · rw [if_pos hcond] at hst
      have hstv : st = (k, statsFor (first :: rest) k) := by
        exact (Option.some.inj hst).symm
      subst hstv
      refine ⟨rfl, ?_, ?_⟩
      · rw [statsFor_count]
        simpa using fieldValues_length (first :: rest) k
      · intro hcount
        have hvne : fieldValues (first :: rest) k ≠ [] := by
          intro hnil
          rw [statsFor_count, hnil] at hcount
          exact hcount rfl
        refine ⟨?_, ?_, ?_, ?_⟩
        · rw [statsFor_sumV, if_neg hvne]
        · rw [statsFor_avgV, if_neg hvne, statsFor_count]
        · rw [statsFor_minV]
          cases hval : fieldValues (first :: rest) k with
          | nil => exact absurd hval hvne
          | cons x xs =>
            exact ⟨xs.foldl min x, rfl, foldl_min_mem x xs, foldl_min_le x xs⟩
        · rw [statsFor_maxV]
          cases hval : fieldValues (first :: rest) k with
          | nil => exact absurd hval hvne
          | cons x xs =>
            exact ⟨xs.foldl max x, rfl, foldl_max_mem x xs, foldl_max_ge x xs⟩
    · rw [if_neg hcond] at hst
      cases hst

/-- Witness for `numeric_fields_characterization` at the spec's own test
array `[{"a": 1}, {"a": 2}, {"a": "x"}]`: the field `a` is not uniformly
numeric, so it is absent from `numeric_fields`. -/
theorem numeric_fields_characterization_witness :
    ((numericFields [[("a", JValue.num 1)], [("a", JValue.num 2)],
      [("a", JValue.str "x")]]).find? (fun p => p.1 = "a")).isSome = false := by
  have h := numeric_fields_characterization
    (.arr [.obj [("a", JValue.num 1)], .obj [("a", JValue.num 2)],
      .obj [("a", JValue.str "x")]])
    [[("a", JValue.num 1)], [("a", JValue.num 2)], [("a", JValue.str "x")]]
    [("a", JValue.num 1)] [[("a", JValue.num 2)], [("a", JValue.str "x")]]
    rfl rfl "a"
  cases hf : ((numericFields [[("a", JValue.num 1)], [("a", JValue.num 2)],
      [("a", JValue.str "x")]]).find? (fun p => p.1 = "a")).isSome
  · rfl
  · exfalso
    obtain ⟨_, hiff, _⟩ := h
    obtain ⟨_, hnum⟩ := hiff.mp hf
    have := hnum [("a", JValue.str "x")] (by simp) (JValue.str "x") (by rfl)
    cases this

/-- C10: because Python booleans are instances of `int`, a field whose
values are booleans (or a mix of booleans and numbers) wherever present is
classified as numeric by `_extract_json_metadata` — provided it is among
the first item's keys — with `True`/`False` contributing 1/0 to the
aggregates, and it is not treated as a categorical field. -/
theorem boolean_fields_classified_numeric (data : JValue) (objs : List JObj)
    (first : JObj) (rest : List JObj)
    (hobjs : asObjList data = some objs) (hfirst : objs = first :: rest)
    (k : String) (hk : k ∈ first.map Prod.fst)
    (hbn : ∀ item ∈ objs, ∀ v, objGet item k = some v →
      (∃ b, v = JValue.bool b) ∨ (∃ q, v = JValue.num q)) :
    (extract_json_metadata data).1 = some (numericFields objs) ∧
    (extract_json_metadata data).2 = some (categoricalFields objs) ∧
    (numericFields objs).find? (fun p => p.1 = k) =
      some (k, statsFor objs k) ∧
    (categoricalFields objs).find? (fun p => p.1 = k) = none ∧
    fieldValues objs k = (objs.filterMap (fun item => objGet item k)).map
      (fun v => match v with
        | JValue.bool b => if b then (1 : ℚ) else 0
        | JValue.num q => q
        | _ => 0) ∧
    (statsFor objs k).count =
      (objs.filter (fun item => objHasKey item k)).length ∧
    ((fieldValues objs k) ≠ [] →
      (statsFor objs k).sumV = some (fieldValues objs k).sum ∧
      (statsFor objs k).avgV =
        some ((fieldValues objs k).sum / ((fieldValues objs k).length : ℚ))) := by
  subst hfirst
  have hnum : fieldIsNumeric (first :: rest) k = true := by
    rw [fieldIsNumeric_iff]
    intro item hitem v hv
    rcases hbn item hitem v hv with ⟨b, rfl⟩ | ⟨q, rfl⟩ <;> rfl
  have hnotstr : fieldIsAllStr (first :: rest) k = false := by
    obtain ⟨v, hv⟩ := objGet_of_mem_keys first k hk
    have hvs : isStrPy v = false := by
      rcases hbn first (List.mem_cons_self _ _) v hv with ⟨b, rfl⟩ | ⟨q, rfl⟩ <;> rfl
    cases hall : fieldIsAllStr (first :: rest) k
    · rfl
    · exfalso
      rw [fieldIsAllStr, List.all_eq_true] at hall
      have := hall first (List.mem_cons_self _ _)
      rw [objHasKey_eq_isSome, hv] at this
      simp only [Option.isSome_some, Bool.not_true, Option.getD_some,
        Bool.false_or] at this
      rw [hvs] at this
      cases this
  refine ⟨?_, ?_, ?_, ?_, ?_, ?_, ?_⟩
  · rw [extract_json_metadata, hobjs]
    simp
  · rw [extract_json_metadata, hobjs]
    simp
  · rw [show numericFields (first :: rest) =
      (first.map Prod.fst).filterMap (fun key =>
        if fieldIsNumeric (first :: rest) key then
          some (key, statsFor (first :: rest) key)
        else none) from rfl,
      find?_numericFields_aux, if_pos ⟨hk, hnum⟩]
  · rw [show categoricalFields (first :: rest) =
      (first.map Prod.fst).filterMap (fun key =>
        if fieldIsAllStr (first :: rest) key then
          let vc := valueCounts (first :: rest) key
          if vc.length ≤ 50 then some (key, vc) else none
        else none) from rfl]
    exact find?_categoricalFields_aux (first :: rest) k (first.map Prod.fst)
      hnotstr
  · rw [fieldValues]
    apply List.map_congr_left
    intro v hv
    obtain ⟨item, hitem, hget⟩ := List.mem_filterMap.mp hv
    rcases hbn item hitem v hget with ⟨b, rfl⟩ | ⟨q, rfl⟩ <;> rfl
  · rw [statsFor_count]
    exact fieldValues_length (first :: rest) k
  · intro hvne
    constructor
    · rw [statsFor_sumV, if_neg hvne]
    · rw [statsFor_avgV, if_neg hvne]

/-- A three-item boolean/numeric field array for the C10 witness. -/
def demoBoolObjs : List JObj :=
  [[("flag", JValue.bool true)], [("flag", JValue.bool false)],
   [("flag", JValue.num 3)]]

/-- Witness for `boolean_fields_classified_numeric` at
`[{"flag": true}, {"flag": false}, {"flag": 3}]`: `True`/`False` enter the
aggregation as 1/0 and the field is not categorical. -/
theorem boolean_fields_classified_numeric_witness :
    (numericFields demoBoolObjs).find? (fun p => p.1 = "flag") =
      some ("flag", statsFor demoBoolObjs "flag") ∧
    (categoricalFields demoBoolObjs).find? (fun p => p.1 = "flag") = none ∧
    fieldValues demoBoolObjs "flag" = [1, 0, 3] ∧
    (statsFor demoBoolObjs "flag").sumV = some 4 := by
  have h := boolean_fields_classified_numeric
    (.arr [.obj [("flag", JValue.bool true)], .obj [("flag", JValue.bool false)],
      .obj [("flag", JValue.num 3)]])
    demoBoolObjs [("flag", JValue.bool true)]
    [[("flag", JValue.bool false)], [("flag", JValue.num 3)]]
    rfl rfl "flag" (by decide)
    (by
      intro item hitem v hv
      rcases List.mem_cons.mp hitem with h1 | h1
      · subst h1
        refine Or.inl ⟨true, ?_⟩
        simp [objGet, List.find?_cons] at hv
        exact hv.symm
      · rcases List.mem_cons.mp h1 with h2 | h2
        · subst h2
          refine Or.inl ⟨false, ?_⟩
          simp [objGet, List.find?_cons] at hv
          exact hv.symm
        · rcases List.mem_cons.mp h2 with h3 | h3
          · subst h3
            refine Or.inr ⟨3, ?_⟩
            simp [objGet, List.find?_cons] at hv
            exact hv.symm
          · cases h3)
  obtain ⟨_, _, h3, h4, h5, _, h7⟩ := h
  have h5v : fieldValues demoBoolObjs "flag" = [1, 0, 3] := by
    rw [h5]
    decide
  refine ⟨h3, h4, h5v, ?_⟩
  have hvne : fieldValues demoBoolObjs "flag" ≠ [] := by
    rw [h5v]
    decide
  rw [(h7 hvne).1, h5v]
  norm_num [List.sum_cons, List.sum_nil]

/-! ## Lemmas about the embedding batch pipeline -/

theorem tryFrom_some (f : Nat → Option Vec) (attempt fuel : Nat) (v : Vec)
    (h : tryFrom f attempt fuel = some v) : ∃ b, f b = some v := by
  induction fuel generalizing attempt with
  | zero => cases h
  | succ fuel ih =>
    rw [tryFrom] at h
    cases hf : f attempt with
    | some w =>
      rw [hf] at h
      exact ⟨attempt, hf.trans (by rw [Option.some.inj h])⟩
    | none =>
      rw [hf] at h
      exact ih (attempt + 1) h

theorem batchEmbedOne_length (o : EmbedOracle) (D : Nat)
    (hb : ∀ t a v, o.batchApi t a = some v → v.length = D)
    (t : String) (v : Vec) (h : batchEmbedOne o t = some v) : v.length = D := by
  obtain ⟨b, hb2⟩ := tryFrom_some _ _ _ _ h
  exact hb _ b v hb2

theorem get_embeddings_length (o : EmbedOracle) (D : Nat)
    (hs : ∀ t a v, o.singleApi t a = some v → v.length = D)
    (t : String) (v : Vec) (h : get_embeddings o t = some v) : v.length = D := by
  obtain ⟨b, hb2⟩ := tryFrom_some _ _ _ _ h
  exact hs _ b v hb2

theorem toBatches_flatten (n : Nat) (hn : 0 < n) :
    ∀ (fuel : Nat) (l : List String), l.length ≤ fuel →
      (toBatches n fuel l).flatten = l := by
  intro fuel
  induction fuel with
  | zero =>
    intro l hl
    have : l = [] := List.length_eq_zero.mp (by omega)
    rw [this]
    rfl
  | succ fuel ih =>
    intro l hl
    cases l with
    | nil => rfl
    | cons x xs =>
      show ((x :: xs).take n :: toBatches n fuel ((x :: xs).drop n)).flatten =
        x :: xs
      have hdrop : ((x :: xs).drop n).length ≤ fuel := by
        rw [List.length_drop]
        simp only [List.length_cons] at hl ⊢
        omega
      rw [List.flatten_cons, ih _ hdrop, List.take_append_drop]

theorem firstDim_eq (D : Nat) (l : List (Option Vec))
    (hall : ∀ x ∈ l, ∀ v, x = some v → v.length = D)
    (hex : ∃ x ∈ l, x.isSome = true) : firstDim l = D := by
  induction l with
  | nil =>
    obtain ⟨x, hx, _⟩ := hex
    cases hx
  | cons x l ih =>
    cases x with
    | some v =>
      rw [firstDim, List.findSome?_cons]
      simp only [Option.map_some']
      exact hall (some v) (List.mem_cons_self _ _) v rfl
    | none =>
      rw [firstDim, List.findSome?_cons]
      simp only [Option.map_none']
      rw [← firstDim]
      refine ih (fun x hx v hv => hall x (List.mem_cons_of_mem _ hx) v hv) ?_
      obtain ⟨x, hx, hxs⟩ := hex
      rcases List.mem_cons.mp hx with h | h
      · rw [h] at hxs
        cases hxs
      · exact ⟨x, h, hxs⟩

theorem firstDim_default (l : List (Option Vec))
    (hall : ∀ x ∈ l, x = none ∨ x = some (List.replicate 768 0)) :
    firstDim l = 768 := by
  induction l with
  | nil => rfl
  | cons x l ih =>
    rcases hall x (List.mem_cons_self _ _) with h | h
    · subst h
      rw [firstDim, List.findSome?_cons]
      simp only [Option.map_none']
      rw [← firstDim]
      exact ih (fun x hx => hall x (List.mem_cons_of_mem _ hx))
    · subst h
      rw [firstDim, List.findSome?_cons]
      simp only [Option.map_some', List.length_replicate]

/-- The per-slot value `get_batch_embeddings` ends up with when every
vector the oracles return has dimension `D` and at least one batch-phase
vector succeeded: the batch vector, else the one-shot fallback vector,
else the `D`-dimensional zero vector. -/
def expectedVec (o : EmbedOracle) (D : Nat) (t : String) (e : Option Vec) : Vec :=
  match e with
  | some v => v
  | none =>
    match get_embeddings o t with
    | some v => v
    | none => List.replicate D 0

theorem expectedVec_some (o : EmbedOracle) (D : Nat) (t : String) (v : Vec) :
    expectedVec o D t (some v) = v := rfl

theorem expectedVec_fallback (o : EmbedOracle) (D : Nat) (t : String) (v : Vec)
    (hf : get_embeddings o t = some v) : expectedVec o D t none = v := by
  unfold expectedVec
  rw [hf]

theorem expectedVec_zero (o : EmbedOracle) (D : Nat) (t : String)
    (hf : get_embeddings o t = none) :
    expectedVec o D t none = List.replicate D 0 := by
  unfold expectedVec
  rw [hf]

theorem fillFallbacks_of_batch_success (o : EmbedOracle) (D : Nat)
    (hfall : ∀ t v, get_embeddings o t = some v → v.length = D) :
    ∀ (pairs : List (String × Option Vec)) (done : List (Option Vec)),
      (∀ x ∈ done ++ pairs.map Prod.snd, ∀ v, x = some v → v.length = D) →
      (∃ x ∈ done ++ pairs.map Prod.snd, x.isSome = true) →
      fillFallbacks o done pairs =
        done ++ pairs.map (fun p => some (expectedVec o D p.1 p.2)) := by
  intro pairs
  induction pairs with
  | nil =>
    intro done _ _
    simp only [fillFallbacks, List.map_nil, List.append_nil]
  | cons p rest ih =>
    intro done hall hex
    obtain ⟨t, e⟩ := p
    have hall' : ∀ (w : Vec),
        ∀ x ∈ (done ++ [some w]) ++ rest.map Prod.snd, w.length = D →
        ∀ v, x = some v → v.length = D := by
      intro w x hx hw v hv
      rcases List.mem_append.mp hx with hx2 | hx2
      · rcases List.mem_append.mp hx2 with hx3 | hx3
        · exact hall x (List.mem_append_left _ hx3) v hv
        · rw [List.mem_singleton.mp hx3] at hv
          rw [← Option.some.inj hv]
          exact hw
      · refine hall x ?_ v hv
        refine List.mem_append_right _ ?_
        simp only [List.map_cons]
        exact List.mem_cons_of_mem _ hx2
    cases e with
    | some v =>
      have hvD : v.length = D := by
        refine hall (some v) ?_ v rfl
        refine List.mem_append_right _ ?_
        simp
      rw [fillFallbacks]
      change fillFallbacks o (done ++ [some v]) rest = _
      rw [ih (done ++ [some v]) (fun x hx => hall' v x hx hvD)
        ⟨some v, by simp, rfl⟩]
      simp only [List.map_cons, expectedVec_some, List.append_assoc,
        List.singleton_append]
    | none =>
      cases hf : get_embeddings o t with
      | some v =>
        have hvD : v.length = D := hfall t v hf
        rw [fillFallbacks, hf]
        change fillFallbacks o (done ++ [some v]) rest = _
        rw [ih (done ++ [some v]) (fun x hx => hall' v x hx hvD)
          ⟨some v, by simp, rfl⟩]
        simp only [List.map_cons, expectedVec_fallback o D t v hf,
          List.append_assoc, List.singleton_append]
      | none =>
        have hdim : firstDim (done ++ none :: rest.map Prod.snd) = D := by
          refine firstDim_eq D _ ?_ ?_
          · intro x hx v hv
            rcases List.mem_append.mp hx with hx2 | hx2
            · exact hall x (List.mem_append_left _ hx2) v hv
            · rcases List.mem_cons.mp hx2 with hx3 | hx3
              · rw [hx3] at hv
                cases hv
              · refine hall x (List.mem_append_right _ ?_) v hv
                simp only [List.map_cons]
                exact List.mem_cons_of_mem _ hx3
          · obtain ⟨x, hx, hxs⟩ := hex
            rcases List.mem_append.mp hx with hx2 | hx2
            · exact ⟨x, List.mem_append_left _ hx2, hxs⟩
            · simp only [List.map_cons] at hx2
              rcases List.mem_cons.mp hx2 with hx3 | hx3
              · rw [hx3] at hxs
                cases hxs
              · exact ⟨x, List.mem_append_right _ (List.mem_cons_of_mem _ hx3),
                  hxs⟩
        rw [fillFallbacks, hf]
        change fillFallbacks o (done ++ [some (List.replicate
          (firstDim (done ++ none :: rest.map Prod.snd)) 0)]) rest = _
        rw [hdim]
        rw [ih (done ++ [some (List.replicate D 0)])
          (fun x hx => hall' _ x hx (List.length_replicate _ _))
          ⟨some (List.replicate D 0), by simp, rfl⟩]
        simp only [List.map_cons, expectedVec_zero o D t hf,
          List.append_assoc, List.singleton_append]

theorem fillFallbacks_all_failed (o : EmbedOracle) :
    ∀ (pairs : List (String × Option Vec)) (done : List (Option Vec)),
      (∀ p ∈ pairs, p.2 = none) →
      (∀ p ∈ pairs, get_embeddings o p.1 = none) →
      (∀ x ∈ done, x = some (List.replicate 768 0)) →
      fillFallbacks o done pairs =
        done ++ pairs.map (fun _ => some (List.replicate 768 0)) := by
  intro pairs
  induction pairs with
  | nil =>
    intro done _ _ _
    simp only [fillFallbacks, List.map_nil, List.append_nil]
  | cons p rest ih =>
    intro done hnone hfail hdone
    obtain ⟨t, e⟩ := p
    have he : e = none := hnone (t, e) (List.mem_cons_self _ _)
    subst he
    have hf : get_embeddings o t = none := hfail (t, none) (List.mem_cons_self _ _)
    have hdim : firstDim (done ++ none :: rest.map Prod.snd) = 768 := by
      refine firstDim_default _ ?_
      intro x hx
      rcases List.mem_append.mp hx with hx2 | hx2
      · exact Or.inr (hdone x hx2)
      · rcases List.mem_cons.mp hx2 with hx3 | hx3
        · exact Or.inl hx3
        · obtain ⟨q, hq, hqx⟩ := List.mem_map.mp hx3
          refine Or.inl ?_
          rw [← hqx]
          exact hnone q (List.mem_cons_of_mem _ hq)
    rw [fillFallbacks, hf]
    change fillFallbacks o (done ++ [some (List.replicate
      (firstDim (done ++ none :: rest.map Prod.snd)) 0)]) rest = _
    rw [hdim]
    rw [ih (done ++ [some (List.replicate 768 0)])
      (fun q hq => hnone q (List.mem_cons_of_mem _ hq))
      (fun q hq => hfail q (List.mem_cons_of_mem _ hq))
      ?_]
    · simp only [List.map_cons, List.append_assoc, List.singleton_append]
    · intro x hx
      rcases List.mem_append.mp hx with hx2 | hx2
      · exact hdone x hx2
      · exact List.mem_singleton.mp hx2

theorem fillFallbacks_length (o : EmbedOracle) :
    ∀ (pairs : List (String × Option Vec)) (done : List (Option Vec)),
      (fillFallbacks o done pairs).length = done.length + pairs.length := by
  intro pairs
  induction pairs with
  | nil => intro done; simp [fillFallbacks]
  | cons p rest ih =>
    intro done
    obtain ⟨t, e⟩ := p
    cases e with
    | some v =>
      rw [fillFallbacks, ih]
      simp only [List.length_append, List.length_singleton, List.length_cons, List.length_nil]
      omega
    | none =>
      cases hf : get_embeddings o t with
      | some v =>
        rw [fillFallbacks, hf, ih]
        simp only [List.length_append, List.length_singleton, List.length_cons, List.length_nil]
        omega
      | none =>
        rw [fillFallbacks, hf, ih]
        simp only [List.length_append, List.length_singleton, List.length_cons, List.length_nil]
        omega

theorem fillFallbacks_preserves (o : EmbedOracle) :
    ∀ (pairs : List (String × Option Vec)) (done : List (Option Vec)) (j : Nat),
      j < done.length → (fillFallbacks o done pairs)[j]? = done[j]? := by
  intro pairs
  induction pairs with
  | nil => intro done j _; rfl
  | cons p rest ih =>
    intro done j hj
    obtain ⟨t, e⟩ := p
    have happ : ∀ w : Option Vec, (done ++ [w])[j]? = done[j]? := by
      intro w
      rw [List.getElem?_append]
      exact if_pos hj
    have hlen : ∀ w : Option Vec, j < (done ++ [w]).length := by
      intro w
      simp only [List.length_append, List.length_singleton, List.length_nil]
      omega
    cases e with
    | some v =>
      rw [fillFallbacks, ih _ _ (hlen (some v)), happ]
    | none =>
      cases hf : get_embeddings o t with
      | some v =>
        rw [fillFallbacks, hf, ih _ _ (hlen (some v)), happ]
      | none =>
        rw [fillFallbacks, hf]
        rw [ih _ _ (hlen _), happ]

theorem fillFallbacks_slot (o : EmbedOracle) :
    ∀ (pairs : List (String × Option Vec)) (done : List (Option Vec))
      (i : Nat) (h : i < pairs.length),
      ∃ w, (fillFallbacks o done pairs)[done.length + i]? = some (some w) ∧
        ((pairs.get ⟨i, h⟩).2 = some w ∨
         ((pairs.get ⟨i, h⟩).2 = none ∧
           get_embeddings o (pairs.get ⟨i, h⟩).1 = some w) ∨
         ((pairs.get ⟨i, h⟩).2 = none ∧
           get_embeddings o (pairs.get ⟨i, h⟩).1 = none ∧
           ∃ d, w = List.replicate d 0)) := by
  intro pairs
  induction pairs with
  | nil =>
    intro done i h
    cases h
  | cons p rest ih =>
    intro done i h
    obtain ⟨t, e⟩ := p
    cases i with
    | zero =>
      have hget : ∀ w : Option Vec,
          (fillFallbacks o (done ++ [w]) rest)[done.length + 0]? = some w := by
        intro w
        rw [Nat.add_zero, fillFallbacks_preserves o rest (done ++ [w])
          done.length (by simp), List.getElem?_concat_length]
      cases e with
      | some v =>
        rw [fillFallbacks]
        exact ⟨v, hget (some v), Or.inl rfl⟩
      | none =>
        cases hf : get_embeddings o t with
        | some v =>
          rw [fillFallbacks, hf]
          exact ⟨v, hget (some v), Or.inr (Or.inl ⟨rfl, hf⟩)⟩
        | none =>
          rw [fillFallbacks, hf]
          refine ⟨List.replicate (firstDim (done ++ none :: rest.map Prod.snd)) 0,
            hget _, Or.inr (Or.inr ⟨rfl, hf, _, rfl⟩)⟩
    | succ i =>
      have hi : i < rest.length := by
        simp only [List.length_cons] at h
        omega
      have hshift : ∀ w : Option Vec, done.length + (i + 1) =
          (done ++ [w]).length + i := by
        intro w
        simp only [List.length_append, List.length_singleton]
        omega
      cases e with
      | some v =>
        rw [fillFallbacks]
        obtain ⟨w, hw, hc⟩ := ih (done ++ [some v]) i hi
        exact ⟨w, by rw [hshift (some v)]; exact hw, hc⟩
      | none =>
        cases hf : get_embeddings o t with
        | some v =>
          rw [fillFallbacks, hf]
          obtain ⟨w, hw, hc⟩ := ih (done ++ [some v]) i hi
          exact ⟨w, by rw [hshift (some v)]; exact hw, hc⟩
        | none =>
          rw [fillFallbacks, hf]
          obtain ⟨w, hw, hc⟩ :=
            ih (done ++ [some (List.replicate
              (firstDim (done ++ none :: rest.map Prod.snd)) 0)]) i hi
          exact ⟨w, by rw [hshift _]; exact hw, hc⟩

theorem zip_map_self {α β : Type} (l : List α) (g : α → β) :
    l.zip (l.map g) = l.map (fun t => (t, g t)) := by
  induction l with
  | nil => rfl
  | cons x xs ih => simp [ih]

/-- C1: `get_batch_embeddings` is length- and order-preserving: slot `i` of
the result is determined by `texts[i]` alone — the batch-phase vector when
some retry succeeds, else the individual fallback vector, else a zero
vector filled in place (never dropped or reordered).  Under the real-world
hypothesis that the embedding model returns vectors of one fixed
dimensionality `D`, the zero vector has dimensionality `D` whenever some
batch-phase vector succeeded, and the default 768 when nothing at all
succeeded. -/
theorem get_batch_embeddings_order_and_fallback (o : EmbedOracle) (D : Nat)
    (texts : List String)
    (hb : ∀ t a v, o.batchApi t a = some v → v.length = D)
    (hs : ∀ t a v, o.singleApi t a = some v → v.length = D) :
    (get_batch_embeddings o texts).length = texts.length ∧
    ∀ i (h : i < texts.length),
      (match batchEmbedOne o (texts.get ⟨i, h⟩) with
       | some v => (get_batch_embeddings o texts)[i]? = some v
       | none =>
         match get_embeddings o (texts.get ⟨i, h⟩) with
         | some v => (get_batch_embeddings o texts)[i]? = some v
         | none => ∃ k, (get_batch_embeddings o texts)[i]? =
             some (List.replicate k 0) ∧
           ((∃ j, ∃ hj : j < texts.length,
              (batchEmbedOne o (texts.get ⟨j, hj⟩)).isSome = true) → k = D) ∧
           ((∀ j (hj : j < texts.length),
              batchEmbedOne o (texts.get ⟨j, hj⟩) = none ∧
              get_embeddings o (texts.get ⟨j, hj⟩) = none) → k = 768)) := by
  by_cases htexts : texts = []
  · subst htexts
    refine ⟨rfl, ?_⟩
    intro i h
    cases h
  · have hflat : ((toBatches 10 texts.length texts).map
        (process_text_batch o)).flatten = texts.map (batchEmbedOne o) := by
      have hpt : process_text_batch o = List.map (batchEmbedOne o) := rfl
      rw [hpt, ← List.map_flatten,
        toBatches_flatten 10 (by omega) texts.length texts (le_refl _)]
    have hresult : get_batch_embeddings o texts =
        (fillFallbacks o [] (texts.map fun t => (t, batchEmbedOne o t))).map
          (fun e => e.getD []) := by
      simp only [get_batch_embeddings, if_neg htexts]
      rw [hflat, zip_map_self]
    have hPlen : (texts.map fun t => (t, batchEmbedOne o t)).length =
        texts.length := List.length_map _ _
    have hPsnd : (texts.map fun t => (t, batchEmbedOne o t)).map Prod.snd =
        texts.map (batchEmbedOne o) := by
      rw [List.map_map]
      rfl
    constructor
    · rw [hresult, List.length_map, fillFallbacks_length, hPlen]
      simp
    intro i h
    by_cases hA : ∃ j, ∃ hj : j < texts.length,
        (batchEmbedOne o (texts.get ⟨j, hj⟩)).isSome = true
    · -- some batch-phase vector succeeded: closed form with dimension D
      have hfill := fillFallbacks_of_batch_success o D
        (get_embeddings_length o D hs)
        (texts.map fun t => (t, batchEmbedOne o t)) []
        (by
          intro x hx v hv
          rw [List.nil_append, hPsnd] at hx
          obtain ⟨t, _, ht⟩ := List.mem_map.mp hx
          rw [← ht] at hv
          exact batchEmbedOne_length o D hb t v hv)
        (by
          obtain ⟨j, hj, hjs⟩ := hA
          refine ⟨batchEmbedOne o (texts.get ⟨j, hj⟩), ?_, hjs⟩
          rw [List.nil_append, hPsnd]
          exact List.mem_map.mpr ⟨texts.get ⟨j, hj⟩, List.get_mem _ _ _, rfl⟩)
      have hres2 : get_batch_embeddings o texts =
          texts.map (fun t => expectedVec o D t (batchEmbedOne o t)) := by
        rw [hresult, hfill, List.nil_append, List.map_map, List.map_map]
        rfl
      have hresi : (get_batch_embeddings o texts)[i]? =
          some (expectedVec o D (texts.get ⟨i, h⟩)
            (batchEmbedOne o (texts.get ⟨i, h⟩))) := by
        rw [hres2, List.getElem?_map, List.getElem?_eq_getElem h,
          Option.map_some']
        rfl
      cases hbe : batchEmbedOne o (texts.get ⟨i, h⟩) with
      | some v =>
        rw [hbe, expectedVec_some] at hresi
        exact hresi
      | none =>
        rw [hbe] at hresi
        cases hfb : get_embeddings o (texts.get ⟨i, h⟩) with
        | some v =>
          rw [expectedVec_fallback o D _ v hfb] at hresi
          exact hresi
        | none =>
          rw [expectedVec_zero o D _ hfb] at hresi
          refine ⟨D, hresi, fun _ => rfl, ?_⟩
          intro hall
          obtain ⟨j, hj, hjs⟩ := hA
          rw [(hall j hj).1] at hjs
          cases hjs
    · by_cases hB2 : ∀ j (hj : j < texts.length),
          batchEmbedOne o (texts.get ⟨j, hj⟩) = none ∧
          get_embeddings o (texts.get ⟨j, hj⟩) = none
      · -- nothing succeeded anywhere: every slot is the default zero vector
        have hmemj : ∀ t ∈ texts, batchEmbedOne o t = none ∧
            get_embeddings o t = none := by
          intro t ht
          obtain ⟨⟨j, hj⟩, hjt⟩ := List.mem_iff_get.mp ht
          rw [← hjt]
          exact hB2 j hj
        have hfill := fillFallbacks_all_failed o
          (texts.map fun t => (t, batchEmbedOne o t)) []
          (by
            intro p hp
            obtain ⟨t, ht, hpt⟩ := List.mem_map.mp hp
            rw [← hpt]
            exact (hmemj t ht).1)
          (by
            intro p hp
            obtain ⟨t, ht, hpt⟩ := List.mem_map.mp hp
            rw [← hpt]
            exact (hmemj t ht).2)
          (by intro x hx; cases hx)
        have hresi : (get_batch_embeddings o texts)[i]? =
            some (List.replicate 768 0) := by
          rw [hresult, hfill, List.nil_append, List.map_map, List.map_map,
            List.getElem?_map, List.getElem?_eq_getElem h, Option.map_some']
          rfl
        rw [(hB2 i h).1, (hB2 i h).2]
        refine ⟨768, hresi, ?_, fun _ => rfl⟩
        intro hex
        obtain ⟨j, hj, hjs⟩ := hex
        rw [(hB2 j hj).1] at hjs
        cases hjs
      · -- mixed case: per-slot characterization, dimension unconstrained
        have hi : i < (texts.map fun t => (t, batchEmbedOne o t)).length := by
          rw [hPlen]
          exact h
        obtain ⟨w, hw, hc⟩ := fillFallbacks_slot o
          (texts.map fun t => (t, batchEmbedOne o t)) [] i hi
        have hgeti : (texts.map fun t => (t, batchEmbedOne o t)).get ⟨i, hi⟩ =
            (texts.get ⟨i, h⟩, batchEmbedOne o (texts.get ⟨i, h⟩)) := by
          rw [List.get_eq_getElem, List.getElem_map]
          rfl
        rw [hgeti] at hc
        have hresi : (get_batch_embeddings o texts)[i]? = some w := by
          rw [hresult, List.getElem?_map]
          rw [List.length_nil, Nat.zero_add] at hw
          rw [hw]
          rfl
        cases hbe : batchEmbedOne o (texts.get ⟨i, h⟩) with
        | some v =>
          rw [hbe] at hc
          rcases hc with hc | hc | hc
          · rw [← Option.some.inj hc] at hresi
            exact hresi
          · cases hc.1
          · cases hc.1
        | none =>
          rw [hbe] at hc
          cases hfb : get_embeddings o (texts.get ⟨i, h⟩) with
          | some v =>
            rcases hc with hc | hc | hc
            · cases hc
            · rw [hfb] at hc
              rw [← Option.some.inj hc.2] at hresi
              exact hresi
            · rw [hfb] at hc
              cases hc.2.1
          | none =>
            rcases hc with hc | hc | hc
            · cases hc
            · rw [hfb] at hc
              cases hc.2
            · obtain ⟨_, _, d, hd⟩ := hc
              subst hd
              refine ⟨d, hresi, ?_, ?_⟩
              · intro hex
                exact absurd hex hA
              · intro hall
                exact absurd hall hB2

/-- A two-vector oracle for the C1 witness: the batch path fails on the text
"bad" and the fallback path fails on everything. -/
def demoOracle : EmbedOracle :=
  { batchApi := fun t _ => if t = "bad" then none else some [1, 2]
    singleApi := fun _ _ => none }

/-- Witness for `get_batch_embeddings_order_and_fallback` at
`["ok", "bad"]`: the failing slot is filled in place by a zero vector of
the successful dimensionality. -/
theorem get_batch_embeddings_order_and_fallback_witness :
    (get_batch_embeddings demoOracle ["ok", "bad"]).length = 2 ∧
    (get_batch_embeddings demoOracle ["ok", "bad"])[0]? = some [1, 2] ∧
    (get_batch_embeddings demoOracle ["ok", "bad"])[1]? =
      some (List.replicate 2 0) := by
  have hb : ∀ t a v, demoOracle.batchApi t a = some v → v.length = 2 := by
    intro t a v hv
    simp only [demoOracle] at hv
    by_cases ht : t = "bad"
    · rw [if_pos ht] at hv
      cases hv
    · rw [if_neg ht] at hv
      rw [← Option.some.inj hv]
      rfl
  have hs : ∀ t a v, demoOracle.singleApi t a = some v → v.length = 2 := by
    intro t a v hv
    cases hv
  have h := get_batch_embeddings_order_and_fallback demoOracle 2
    ["ok", "bad"] hb hs
  have h0 := h.2 0 (by decide)
  have h1 := h.2 1 (by decide)
  have hbe0 : batchEmbedOne demoOracle (["ok", "bad"].get ⟨0, by decide⟩) =
      some [1, 2] := rfl
  have hbe1 : batchEmbedOne demoOracle (["ok", "bad"].get ⟨1, by decide⟩) =
      none := rfl
  have hfb1 : get_embeddings demoOracle (["ok", "bad"].get ⟨1, by decide⟩) =
      none := rfl
  rw [hbe0] at h0
  rw [hbe1, hfb1] at h1
  obtain ⟨k, hk, hkD, _⟩ := h1
  have hk2 : k = 2 := hkD ⟨0, by decide, by rw [hbe0]; rfl⟩
  subst hk2
  exact ⟨h.1, h0, hk⟩

/-! ## Lemmas for the str()/eval() round trip -/

/-- Whether the remaining input cannot extend a decimal number (used to
state where a printed number may safely end). -/
def headSafe : List Char → Bool
  | [] => true
  | c :: _ => !c.isDigit

theorem headSafe_cons (c : Char) (r : List Char) :
    headSafe (c :: r) = !c.isDigit := rfl

theorem charToDigit_digitChar10 (d : Nat) (h : d < 10) :
    charToDigit (digitChar10 d) = d := by
  interval_cases d <;> rfl

theorem isDigit_digitChar10 (d : Nat) (h : d < 10) :
    (digitChar10 d).isDigit = true := by
  interval_cases d <;> rfl

theorem natChars_ne_nil (n : Nat) : natChars n ≠ [] := by
  rw [natChars]
  split
  · intro h
    cases h
  · intro h
    exact absurd h (List.append_ne_nil_of_right_ne_nil _ (by simp))

theorem natChars_all_digits (n : Nat) : ∀ c ∈ natChars n, c.isDigit = true := by
  induction n using Nat.strong_induction_on with
  | _ n ih =>
    rw [natChars]
    split
    · next h =>
      intro c hc
      rw [List.mem_singleton.mp hc]
      exact isDigit_digitChar10 n h
    · next h =>
      intro c hc
      rcases List.mem_append.mp hc with hc2 | hc2
      · exact ih (n / 10) (Nat.div_lt_self (by omega) (by omega)) c hc2
      · rw [List.mem_singleton.mp hc2]
        exact isDigit_digitChar10 (n % 10) (Nat.mod_lt _ (by omega))

theorem digitsToNat_concat (a : List Char) (c : Char) :
    digitsToNat (a ++ [c]) = 10 * digitsToNat a + charToDigit c := by
  rw [digitsToNat, digitsToNat, List.foldl_append]
  rfl

theorem digitsToNat_natChars (n : Nat) : digitsToNat (natChars n) = n := by
  induction n using Nat.strong_induction_on with
  | _ n ih =>
    rw [natChars]
    split
    · next h =>
      show 10 * 0 + charToDigit (digitChar10 n) = n
      rw [charToDigit_digitChar10 n h]
      omega
    · next h =>
      rw [digitsToNat_concat, ih (n / 10) (Nat.div_lt_self (by omega) (by omega)),
        charToDigit_digitChar10 (n % 10) (Nat.mod_lt _ (by omega))]
      omega

theorem takeDigits_append (ds r : List Char)
    (hds : ∀ c ∈ ds, c.isDigit = true) (hr : headSafe r = true) :
    takeDigits (ds ++ r) = (ds, r) := by
  induction ds with
  | nil =>
    cases r with
    | nil => rfl
    | cons c r' =>
      rw [headSafe_cons] at hr
      rw [List.nil_append, takeDigits]
      simp only [Bool.not_eq_true'] at hr
      rw [hr]
      rfl
  | cons d ds ih =>
    rw [List.cons_append, takeDigits,
      hds d (List.mem_cons_self _ _),
      ih (fun c hc => hds c (List.mem_cons_of_mem _ hc))]
    rfl

theorem parseNat_natChars (m : Nat) (r : List Char) (hr : headSafe r = true) :
    parseNat (natChars m ++ r) = some (m, r) := by
  rw [parseNat, takeDigits_append _ _ (natChars_all_digits m) hr]
  simp only [natChars_ne_nil m, if_neg, ite_false]
  rw [digitsToNat_natChars]

theorem digit_not_special (c : Char) (h : c.isDigit = true) :
    c ≠ quoteC ∧ c ≠ '[' ∧ c ≠ lbraceC ∧ c ≠ ']' ∧ c ≠ rbraceC ∧ c ≠ '-' := by
  refine ⟨?_, ?_, ?_, ?_, ?_, ?_⟩ <;> intro he <;> subst he <;> revert h <;> decide

theorem natChars_head (n : Nat) :
    ∃ c t, natChars n = c :: t ∧ c.isDigit = true := by
  cases hn : natChars n with
  | nil => exact absurd hn (natChars_ne_nil n)
  | cons c t =>
    exact ⟨c, t, rfl, natChars_all_digits n c (by rw [hn]; exact List.mem_cons_self _ _)⟩

theorem parseInt_intChars (n : ℤ) (r : List Char) (hr : headSafe r = true) :
    parseInt (intChars n ++ r) = some (n, r) := by
  rw [intChars]
  split
  · next hneg =>
    rw [List.cons_append, parseInt, if_pos rfl, parseNat_natChars _ _ hr]
    simp only [Option.map_some']
    congr 1
    congr 1
    omega
  · next hpos =>
    obtain ⟨c, t, hct, hcd⟩ := natChars_head n.natAbs
    rw [hct, List.cons_append, parseInt,
      if_neg (digit_not_special c hcd).2.2.2.2.2, ← List.cons_append, ← hct,
      parseNat_natChars _ _ hr]
    simp only [Option.map_some']
    congr 1
    congr 1
    omega

theorem parseStrBody_cons (c : Char) (s : List Char) :
    parseStrBody (c :: s) =
      if c = quoteC then some ([], s)
      else if c = bslashC then
        match s with
        | [] => none
        | c2 :: s2 => (parseStrBody s2).map (fun p => (c2 :: p.1, p.2))
      else (parseStrBody s).map (fun p => (c :: p.1, p.2)) := by
  cases s <;> rfl

theorem parseStrBody_escape (s r : List Char) :
    parseStrBody (escapeChars s ++ quoteC :: r) = some (s, r) := by
  induction s with
  | nil =>
    rw [escapeChars, List.nil_append, parseStrBody_cons, if_pos rfl]
  | cons c s ih =>
    rw [escapeChars]
    split
    · next hc =>
      rw [List.cons_append, List.cons_append, parseStrBody_cons,
        if_neg (by decide), if_pos rfl]
      show (parseStrBody (escapeChars s ++ quoteC :: r)).map
        (fun p => (c :: p.1, p.2)) = some (c :: s, r)
      rw [ih]
      rfl
    · next hc =>
      push_neg at hc
      rw [List.cons_append, parseStrBody_cons, if_neg hc.2, if_neg hc.1, ih]
      rfl

theorem pyStr_int (n : ℤ) : pyStr (.int n) = intChars n := by rw [pyStr]

theorem pyStr_str (s : List Char) : pyStr (.str s) = strLitChars s := by
  rw [pyStr]

theorem pyStr_list (l : List PyVal) :
    pyStr (.list l) = '[' :: pyStrElems l ++ [']'] := by rw [pyStr]

theorem pyStr_dict (l : List (List Char × PyVal)) :
    pyStr (.dict l) = lbraceC :: pyStrEntries l ++ [rbraceC] := by rw [pyStr]

theorem pyStrElems_nil : pyStrElems [] = [] := by rw [pyStrElems]

theorem pyStrElems_singleton (v : PyVal) : pyStrElems [v] = pyStr v := by
  rw [pyStrElems]

theorem pyStrElems_cons2 (v v2 : PyVal) (vs : List PyVal) :
    pyStrElems (v :: v2 :: vs) = pyStr v ++ ',' :: ' ' :: pyStrElems (v2 :: vs) := by
  rw [pyStrElems]
  simp

theorem pyStrEntries_nil : pyStrEntries [] = [] := by rw [pyStrEntries]

theorem pyStrEntries_singleton (k : List Char) (v : PyVal) :
    pyStrEntries [(k, v)] = strLitChars k ++ ':' :: ' ' :: pyStr v := by
  rw [pyStrEntries]

theorem pyStrEntries_cons2 (k : List Char) (v : PyVal)
    (e2 : List Char × PyVal) (es : List (List Char × PyVal)) :
    pyStrEntries ((k, v) :: e2 :: es) =
      strLitChars k ++ ':' :: ' ' :: pyStr v ++ ',' :: ' ' :: pyStrEntries (e2 :: es) := by
  rw [pyStrEntries]
  simp

theorem pfuel_int (n : ℤ) : pfuel (.int n) = 1 := by rw [pfuel]

theorem pfuel_str (s : List Char) : pfuel (.str s) = 1 := by rw [pfuel]

theorem pfuel_list (l : List PyVal) : pfuel (.list l) = 1 + pfuelElems l := by
  rw [pfuel]

theorem pfuel_dict (l : List (List Char × PyVal)) :
    pfuel (.dict l) = 1 + pfuelEntries l := by rw [pfuel]

theorem pfuelElems_nil : pfuelElems [] = 1 := by rw [pfuelElems]

theorem pfuelElems_cons (v : PyVal) (vs : List PyVal) :
    pfuelElems (v :: vs) = 1 + pfuel v + pfuelElems vs := by rw [pfuelElems]

theorem pfuelEntries_nil : pfuelEntries [] = 1 := by rw [pfuelEntries]

theorem pfuelEntries_cons (k : List Char) (v : PyVal)
    (es : List (List Char × PyVal)) :
    pfuelEntries ((k, v) :: es) = 1 + pfuel v + pfuelEntries es := by
  rw [pfuelEntries]

theorem one_le_pfuel (v : PyVal) : 1 ≤ pfuel v := by
  cases v with
  | int n => rw [pfuel_int]
  | str s => rw [pfuel_str]
  | list l => rw [pfuel_list]; omega
  | dict l => rw [pfuel_dict]; omega

theorem pyStr_head (v : PyVal) : ∃ c t, pyStr v = c :: t ∧
    (c = quoteC ∨ c = '[' ∨ c = lbraceC ∨ c = '-' ∨ c.isDigit = true) := by
  cases v with
  | int n =>
    rw [pyStr_int, intChars]
    split
    · exact ⟨'-', _, rfl, Or.inr (Or.inr (Or.inr (Or.inl rfl)))⟩
    · obtain ⟨c, t, hct, hcd⟩ := natChars_head n.natAbs
      exact ⟨c, t, hct, Or.inr (Or.inr (Or.inr (Or.inr hcd)))⟩
  | str s =>
    exact ⟨quoteC, escapeChars s ++ [quoteC], by rw [pyStr_str]; rfl, Or.inl rfl⟩
  | list l =>
    exact ⟨'[', _, by rw [pyStr_list]; rfl, Or.inr (Or.inl rfl)⟩
  | dict l =>
    exact ⟨lbraceC, _, by rw [pyStr_dict]; rfl, Or.inr (Or.inr (Or.inl rfl))⟩

theorem pyStr_head_not_bracket (v : PyVal) :
    ∃ c t, pyStr v = c :: t ∧ ¬ c = ']' ∧ ¬ c = rbraceC := by
  obtain ⟨c, t, h, hc⟩ := pyStr_head v
  refine ⟨c, t, h, ?_, ?_⟩
  · rcases hc with rfl | rfl | rfl | rfl | hd
    · decide
    · decide
    · decide
    · decide
    · exact (digit_not_special c hd).2.2.2.1
  · rcases hc with rfl | rfl | rfl | rfl | hd
    · decide
    · decide
    · decide
    · decide
    · exact (digit_not_special c hd).2.2.2.2.1

theorem parseVal_succ_cons (fuel : Nat) (c : Char) (s' : List Char) :
    parseVal (fuel + 1) (c :: s') =
      if c = quoteC then (parseStrBody s').map (fun p => (PyVal.str p.1, p.2))
      else if c = '[' then
        (parseElems fuel s').map (fun p => (PyVal.list p.1, p.2))
      else if c = lbraceC then
        (parseEntries fuel s').map (fun p => (PyVal.dict p.1, p.2))
      else (parseInt (c :: s')).map (fun p => (PyVal.int p.1, p.2)) := by
  rw [parseVal]

theorem parseElems_succ_cons (fuel : Nat) (c : Char) (s' : List Char) :
    parseElems (fuel + 1) (c :: s') =
      if c = ']' then some ([], s')
      else
        match parseVal fuel (c :: s') with
        | none => none
        | some (v, rest) =>
          match rest with
          | [] => none
          | c2 :: rest' =>
            if c2 = ',' then
              match rest' with
              | ' ' :: rest2 =>
                (parseElems fuel rest2).map (fun p => (v :: p.1, p.2))
              | _ => none
            else if c2 = ']' then some ([v], rest')
            else none := by
  rw [parseElems]

theorem parseEntries_succ_cons (fuel : Nat) (c : Char) (s' : List Char) :
    parseEntries (fuel + 1) (c :: s') =
      if c = rbraceC then some ([], s')
      else if c = quoteC then
        match parseStrBody s' with
        | none => none
        | some (k, rest) =>
          match rest with
          | ':' :: ' ' :: rest2 =>
            match parseVal fuel rest2 with
            | none => none
            | some (v, rest3) =>
              match rest3 with
              | [] => none
              | c3 :: rest4 =>
                if c3 = ',' then
                  match rest4 with
                  | ' ' :: rest5 =>
                    (parseEntries fuel rest5).map (fun p => ((k, v) :: p.1, p.2))
                  | _ => none
                else if c3 = rbraceC then some ([(k, v)], rest4)
                else none
          | _ => none
      else none := by
  rw [parseEntries]

theorem one_le_pfuelElems (l : List PyVal) : 1 ≤ pfuelElems l := by
  cases l with
  | nil => rw [pfuelElems_nil]
  | cons v vs => rw [pfuelElems_cons]; omega

theorem one_le_pfuelEntries (l : List (List Char × PyVal)) :
    1 ≤ pfuelEntries l := by
  cases l with
  | nil => rw [pfuelEntries_nil]
  | cons e es =>
    obtain ⟨k, v⟩ := e
    rw [pfuelEntries_cons]
    omega

theorem intChars_head (m : ℤ) : ∃ c t, intChars m = c :: t ∧
    (c = '-' ∨ c.isDigit = true) := by
  rw [intChars]
  split
  · exact ⟨'-', _, rfl, Or.inl rfl⟩
  · obtain ⟨c, t, hct, hcd⟩ := natChars_head m.natAbs
    exact ⟨c, t, hct, Or.inr hcd⟩

theorem intChars_head_not_special (c : Char) (hc : c = '-' ∨ c.isDigit = true) :
    ¬ c = quoteC ∧ ¬ c = '[' ∧ ¬ c = lbraceC := by
  rcases hc with rfl | hd
  · exact ⟨by decide, by decide, by decide⟩
  · exact ⟨(digit_not_special c hd).1, (digit_not_special c hd).2.1,
      (digit_not_special c hd).2.2.1⟩

/-- Round trip of the printer and the parser, by strong induction on the
required fuel: a printed value followed by any safe remainder parses back
to exactly that value and remainder. -/
theorem roundtrip_upto (n : Nat) :
    (∀ v : PyVal, pfuel v ≤ n → ∀ fuel r, pfuel v ≤ fuel → headSafe r = true →
      parseVal fuel (pyStr v ++ r) = some (v, r)) ∧
    (∀ l : List PyVal, pfuelElems l ≤ n → ∀ fuel r, pfuelElems l ≤ fuel →
      parseElems fuel (pyStrElems l ++ ']' :: r) = some (l, r)) ∧
    (∀ l : List (List Char × PyVal), pfuelEntries l ≤ n → ∀ fuel r,
      pfuelEntries l ≤ fuel →
      parseEntries fuel (pyStrEntries l ++ rbraceC :: r) = some (l, r)) := by
  induction n using Nat.strong_induction_on with
  | _ n ih =>
    refine ⟨?_, ?_, ?_⟩
    · -- parseVal round trip
      intro v hv fuel r hfuel hr
      have h1 : 1 ≤ fuel := le_trans (one_le_pfuel v) hfuel
      cases fuel with
      | zero => omega
      | succ f =>
        cases v with
        | int m =>
          rw [pyStr_int]
          obtain ⟨c, t, hct, hc⟩ := intChars_head m
          obtain ⟨hc1, hc2, hc3⟩ := intChars_head_not_special c hc
          rw [hct, List.cons_append, parseVal_succ_cons, if_neg hc1,
            if_neg hc2, if_neg hc3, ← List.cons_append, ← hct,
            parseInt_intChars m r hr]
          rfl
        | str sc =>
          rw [pyStr_str]
          rw [show strLitChars sc ++ r =
            quoteC :: (escapeChars sc ++ quoteC :: r) by
              rw [strLitChars]; simp]
          rw [parseVal_succ_cons, if_pos rfl, parseStrBody_escape]
          rfl
        | list l =>
          rw [pyStr_list]
          rw [show ('[' :: pyStrElems l ++ [']']) ++ r =
            '[' :: (pyStrElems l ++ ']' :: r) by simp]
          rw [parseVal_succ_cons, if_neg (by decide), if_pos rfl]
          have hlt : pfuelElems l < n := by
            rw [pfuel_list] at hv
            omega
          have hfl : pfuelElems l ≤ f := by
            rw [pfuel_list] at hfuel
            omega
          rw [(ih (pfuelElems l) hlt).2.1 l (le_refl _) f r hfl]
          rfl
        | dict l =>
          rw [pyStr_dict]
          rw [show (lbraceC :: pyStrEntries l ++ [rbraceC]) ++ r =
            lbraceC :: (pyStrEntries l ++ rbraceC :: r) by simp]
          rw [parseVal_succ_cons, if_neg (by decide), if_neg (by decide),
            if_pos rfl]
          have hlt : pfuelEntries l < n := by
            rw [pfuel_dict] at hv
            omega
          have hfl : pfuelEntries l ≤ f := by
            rw [pfuel_dict] at hfuel
            omega
          rw [(ih (pfuelEntries l) hlt).2.2 l (le_refl _) f r hfl]
          rfl
    · -- parseElems round trip
      intro l hl fuel r hfuel
      have h1 : 1 ≤ fuel := le_trans (one_le_pfuelElems l) hfuel
      cases fuel with
      | zero => omega
      | succ f =>
        cases l with
        | nil =>
          rw [pyStrElems_nil, List.nil_append, parseElems_succ_cons,
            if_pos rfl]
        | cons v vs =>
          cases vs with
          | nil =>
            rw [pyStrElems_singleton]
            obtain ⟨c, t, hct, hb1, hb2⟩ := pyStr_head_not_bracket v
            have hvlt : pfuel v < n := by
              rw [pfuelElems_cons, pfuelElems_nil] at hl
              omega
            have hvf : pfuel v ≤ f := by
              rw [pfuelElems_cons, pfuelElems_nil] at hfuel
              omega
            rw [hct, List.cons_append, parseElems_succ_cons, if_neg hb1,
              ← List.cons_append, ← hct,
              (ih (pfuel v) hvlt).1 v (le_refl _) f (']' :: r) hvf
                (by rw [headSafe_cons]; decide)]
            simp
          | cons v2 vs2 =>
            rw [pyStrElems_cons2]
            obtain ⟨c, t, hct, hb1, hb2⟩ := pyStr_head_not_bracket v
            have hvlt : pfuel v < n := by
              rw [pfuelElems_cons] at hl
              have := one_le_pfuelElems (v2 :: vs2)
              omega
            have hvf : pfuel v ≤ f := by
              rw [pfuelElems_cons] at hfuel
              have := one_le_pfuelElems (v2 :: vs2)
              omega
            have hlt2 : pfuelElems (v2 :: vs2) < n := by
              rw [pfuelElems_cons] at hl
              have := one_le_pfuel v
              omega
            have hf2 : pfuelElems (v2 :: vs2) ≤ f := by
              rw [pfuelElems_cons] at hfuel
              have := one_le_pfuel v
              omega
            rw [show (pyStr v ++ ',' :: ' ' :: pyStrElems (v2 :: vs2)) ++
                ']' :: r =
              pyStr v ++ (',' :: ' ' :: (pyStrElems (v2 :: vs2) ++
                ']' :: r)) by simp]
            rw [hct, List.cons_append, parseElems_succ_cons, if_neg hb1,
              ← List.cons_append, ← hct,
              (ih (pfuel v) hvlt).1 v (le_refl _) f
                (',' :: ' ' :: (pyStrElems (v2 :: vs2) ++ ']' :: r)) hvf
                (by rw [headSafe_cons]; decide)]
            simp [(ih (pfuelElems (v2 :: vs2)) hlt2).2.1 (v2 :: vs2)
              (le_refl _) f r hf2]
    · -- parseEntries round trip
      intro l hl fuel r hfuel
      have h1 : 1 ≤ fuel := le_trans (one_le_pfuelEntries l) hfuel
      cases fuel with
      | zero => omega
      | succ f =>
        cases l with
        | nil =>
          rw [pyStrEntries_nil, List.nil_append, parseEntries_succ_cons,
            if_pos rfl]
        | cons e es =>
          obtain ⟨k, v⟩ := e
          cases es with
          | nil =>
            rw [pyStrEntries_singleton]
            have hvlt : pfuel v < n := by
              rw [pfuelEntries_cons, pfuelEntries_nil] at hl
              omega
            have hvf : pfuel v ≤ f := by
              rw [pfuelEntries_cons, pfuelEntries_nil] at hfuel
              omega
            rw [show (strLitChars k ++ ':' :: ' ' :: pyStr v) ++
                rbraceC :: r =
              quoteC :: (escapeChars k ++ quoteC ::
                (':' :: ' ' :: (pyStr v ++ rbraceC :: r))) by
                rw [strLitChars]; simp]
            rw [parseEntries_succ_cons, if_neg (by decide), if_pos rfl,
              parseStrBody_escape]
            simp [(ih (pfuel v) hvlt).1 v (le_refl _) f (rbraceC :: r) hvf
              (by rw [headSafe_cons]; decide),
              show ¬ (rbraceC = ',') from by decide]
          | cons e2 es2 =>
            rw [pyStrEntries_cons2]
            have hvlt : pfuel v < n := by
              rw [pfuelEntries_cons] at hl
              have := one_le_pfuelEntries (e2 :: es2)
              omega
            have hvf : pfuel v ≤ f := by
              rw [pfuelEntries_cons] at hfuel
              have := one_le_pfuelEntries (e2 :: es2)
              omega
            have hlt2 : pfuelEntries (e2 :: es2) < n := by
              rw [pfuelEntries_cons] at hl
              have := one_le_pfuel v
              omega
            have hf2 : pfuelEntries (e2 :: es2) ≤ f := by
              rw [pfuelEntries_cons] at hfuel
              have := one_le_pfuel v
              omega
            rw [show (strLitChars k ++ ':' :: ' ' :: pyStr v ++
                ',' :: ' ' :: pyStrEntries (e2 :: es2)) ++ rbraceC :: r =
              quoteC :: (escapeChars k ++ quoteC ::
                (':' :: ' ' :: (pyStr v ++ (',' :: ' ' ::
                  (pyStrEntries (e2 :: es2) ++ rbraceC :: r))))) by
                rw [strLitChars]; simp]
            rw [parseEntries_succ_cons, if_neg (by decide), if_pos rfl,
              parseStrBody_escape]
            simp [(ih (pfuel v) hvlt).1 v (le_refl _) f
                (',' :: ' ' :: (pyStrEntries (e2 :: es2) ++ rbraceC :: r)) hvf
                (by rw [headSafe_cons]; decide),
              (ih (pfuelEntries (e2 :: es2)) hlt2).2.2 (e2 :: es2)
                (le_refl _) f r hf2]

theorem pfuel_le_bound (n : Nat) :
    (∀ v : PyVal, pfuel v ≤ n → pfuel v ≤ 2 * (pyStr v).length) ∧
    (∀ l : List PyVal, pfuelElems l ≤ n →
      pfuelElems l ≤ 2 * (pyStrElems l).length + 3) ∧
    (∀ l : List (List Char × PyVal), pfuelEntries l ≤ n →
      pfuelEntries l ≤ 2 * (pyStrEntries l).length + 3) := by
  induction n using Nat.strong_induction_on with
  | _ n ih =>
    refine ⟨?_, ?_, ?_⟩
    · intro v hv
      cases v with
      | int m =>
        have hnn := natChars_ne_nil m.natAbs
        have hpos : 1 ≤ (natChars m.natAbs).length :=
          List.length_pos.mpr hnn
        rw [pyStr_int, pfuel_int, intChars]
        split
        · rw [List.length_cons]
          omega
        · omega
      | str sc =>
        rw [pyStr_str, pfuel_str]
        have hlen : (strLitChars sc).length =
            (escapeChars sc ++ [quoteC]).length + 1 := rfl
        omega
      | list l =>
        rw [pfuel_list] at hv ⊢
        have hlt : pfuelElems l < n := by
          have := one_le_pfuelElems l
          omega
        have hb := (ih (pfuelElems l) hlt).2.1 l (le_refl _)
        rw [pyStr_list]
        simp only [List.length_cons, List.length_append, List.length_singleton]
        omega
      | dict l =>
        rw [pfuel_dict] at hv ⊢
        have hlt : pfuelEntries l < n := by
          have := one_le_pfuelEntries l
          omega
        have hb := (ih (pfuelEntries l) hlt).2.2 l (le_refl _)
        rw [pyStr_dict]
        simp only [List.length_cons, List.length_append, List.length_singleton]
        omega
    · intro l hl
      cases l with
      | nil =>
        rw [pfuelElems_nil, pyStrElems_nil]
        omega
      | cons v vs =>
        cases vs with
        | nil =>
          rw [pfuelElems_cons, pfuelElems_nil] at hl ⊢
          have hvlt : pfuel v < n := by omega
          have hb := (ih (pfuel v) hvlt).1 v (le_refl _)
          rw [pyStrElems_singleton]
          omega
        | cons v2 vs2 =>
          rw [pfuelElems_cons] at hl ⊢
          have hvlt : pfuel v < n := by
            have := one_le_pfuelElems (v2 :: vs2)
            omega
          have hllt : pfuelElems (v2 :: vs2) < n := by
            have := one_le_pfuel v
            omega
          have hb1 := (ih (pfuel v) hvlt).1 v (le_refl _)
          have hb2 := (ih (pfuelElems (v2 :: vs2)) hllt).2.1 (v2 :: vs2)
            (le_refl _)
          rw [pyStrElems_cons2]
          simp only [List.length_append, List.length_cons]
          omega
    · intro l hl
      cases l with
      | nil =>
        rw [pfuelEntries_nil, pyStrEntries_nil]
        omega
      | cons e es =>
        obtain ⟨k, v⟩ := e
        cases es with
        | nil =>
          rw [pfuelEntries_cons, pfuelEntries_nil] at hl ⊢
          have hvlt : pfuel v < n := by omega
          have hb := (ih (pfuel v) hvlt).1 v (le_refl _)
          rw [pyStrEntries_singleton]
          simp only [List.length_append, List.length_cons]
          omega
        | cons e2 es2 =>
          rw [pfuelEntries_cons] at hl ⊢
          have hvlt : pfuel v < n := by
            have := one_le_pfuelEntries (e2 :: es2)
            omega
          have hllt : pfuelEntries (e2 :: es2) < n := by
            have := one_le_pfuel v
            omega
          have hb1 := (ih (pfuel v) hvlt).1 v (le_refl _)
          have hb2 := (ih (pfuelEntries (e2 :: es2)) hllt).2.2 (e2 :: es2)
            (le_refl _)
          rw [pyStrEntries_cons2]
          simp only [List.length_append, List.length_cons]
          omega

/-- The central round trip: `eval(str(v))` recovers exactly `v` for every
metadata value built from dicts, lists, integers and strings. -/
theorem pyEval_pyStr (v : PyVal) : pyEval (pyStr v) = some v := by
  have hb := (pfuel_le_bound (pfuel v)).1 v (le_refl _)
  have hr := (roundtrip_upto (pfuel v)).1 v (le_refl _)
    (2 * (pyStr v).length + 2) [] (by omega) rfl
  rw [List.append_nil] at hr
  rw [pyEval, hr]

/-- C2: metadata serialized with `str()` by `add_document_chunks` and
deserialized with `eval()` by `get_document_metadata` round-trips: for any
metadata value built from nested dicts, lists, numbers and strings, storing
a document's chunks and reading its metadata back yields the stored value
(numbers modelled as arbitrary-precision integers; the claim's exclusion of
code-like content is inherited by the literal fragment modelled here). -/
theorem metadata_roundtrip_through_store (genId : Nat → Nat)
    (chunks : List String) (embeddings : List Vec)
    (document_id file_type : String) (metadata : PyVal)
    (hne : chunks ≠ []) (hlen : chunks.length = embeddings.length) :
    get_document_metadata
      (add_document_chunks genId chunks embeddings document_id file_type
        metadata).1 document_id = some (file_type, some metadata) := by
  cases chunks with
  | nil => exact absurd rfl hne
  | cons c cs =>
    cases embeddings with
    | nil =>
      rw [List.length_cons, List.length_nil] at hlen
      omega
    | cons e es =>
      simp only [add_document_chunks]
      rw [show (c :: cs).zip (e :: es) = (c, e) :: cs.zip es from rfl,
        buildRecords, get_document_metadata, docChunks, List.filter_cons]
      simp only [decide_True, if_pos, decide_eq_true_eq]
      rw [pyEval_pyStr]

/-- Witness for `metadata_roundtrip_through_store` at a one-chunk document
with a nested dict metadata value. -/
theorem metadata_roundtrip_through_store_witness :
    get_document_metadata
      (add_document_chunks (fun n => n) ["chunk0"] [[1]] "doc-1" "json"
        (.dict [(['a'], .int 5), (['b'], .list [.int 1, .str ['x']])])).1
      "doc-1" =
    some ("json",
      some (.dict [(['a'], .int 5), (['b'], .list [.int 1, .str ['x']])])) := by
  exact metadata_roundtrip_through_store (fun n => n) ["chunk0"] [[1]]
    "doc-1" "json" (.dict [(['a'], .int 5), (['b'], .list [.int 1, .str ['x']])])
    (by decide) rfl

end RagSystem
